import Mathlib

/-!
Shallow embedding of the jmullan logging library (packages `jmullan.logging`
and `jmullan_logging`) and proofs about its field-merging engine, context
stack and JSON formatter.

Python dictionaries are modelled as insertion-ordered association lists with
distinct keys; `dict[k] = v` on an existing key keeps the key's position
(`aset`), `dict.get(k, default)` is `alookup`.  The sentinel `_EMPTY` used by
`merge_values` is modelled as `Option.none` around a `FieldValue`.
-/

/-- Recursive model of the JSON-like values the library manipulates:
Python scalars (None, bool, int, str), lists and dicts. -/
inductive FieldValue where
  | null
  | bool (b : Bool)
  | int (n : Int)
  | str (s : String)
  | list (xs : List FieldValue)
  | map (entries : List (String × FieldValue))

namespace FieldValue

mutual

def decEqFV : (a b : FieldValue) → Decidable (a = b)
  | .null, .null => isTrue rfl
  | .bool x, .bool y =>
    if h : x = y then isTrue (by rw [h]) else isFalse (by intro hh; cases hh; exact h rfl)
  | .int x, .int y =>
    if h : x = y then isTrue (by rw [h]) else isFalse (by intro hh; cases hh; exact h rfl)
  | .str x, .str y =>
    if h : x = y then isTrue (by rw [h]) else isFalse (by intro hh; cases hh; exact h rfl)
  | .list xs, .list ys =>
    match decEqFVList xs ys with
    | isTrue h => isTrue (by rw [h])
    | isFalse h => isFalse (by intro hh; cases hh; exact h rfl)
  | .map xs, .map ys =>
    match decEqFVEntries xs ys with
    | isTrue h => isTrue (by rw [h])
    | isFalse h => isFalse (by intro hh; cases hh; exact h rfl)
  | .null, .bool _ => isFalse (by intro h; cases h)
  | .null, .int _ => isFalse (by intro h; cases h)
  | .null, .str _ => isFalse (by intro h; cases h)
  | .null, .list _ => isFalse (by intro h; cases h)
  | .null, .map _ => isFalse (by intro h; cases h)
  | .bool _, .null => isFalse (by intro h; cases h)
  | .bool _, .int _ => isFalse (by intro h; cases h)
  | .bool _, .str _ => isFalse (by intro h; cases h)
  | .bool _, .list _ => isFalse (by intro h; cases h)
  | .bool _, .map _ => isFalse (by intro h; cases h)
  | .int _, .null => isFalse (by intro h; cases h)
  | .int _, .bool _ => isFalse (by intro h; cases h)
  | .int _, .str _ => isFalse (by intro h; cases h)
  | .int _, .list _ => isFalse (by intro h; cases h)
  | .int _, .map _ => isFalse (by intro h; cases h)
  | .str _, .null => isFalse (by intro h; cases h)
  | .str _, .bool _ => isFalse (by intro h; cases h)
  | .str _, .int _ => isFalse (by intro h; cases h)
  | .str _, .list _ => isFalse (by intro h; cases h)
  | .str _, .map _ => isFalse (by intro h; cases h)
  | .list _, .null => isFalse (by intro h; cases h)
  | .list _, .bool _ => isFalse (by intro h; cases h)
  | .list _, .int _ => isFalse (by intro h; cases h)
  | .list _, .str _ => isFalse (by intro h; cases h)
  | .list _, .map _ => isFalse (by intro h; cases h)
  | .map _, .null => isFalse (by intro h; cases h)
  | .map _, .bool _ => isFalse (by intro h; cases h)
  | .map _, .int _ => isFalse (by intro h; cases h)
  | .map _, .str _ => isFalse (by intro h; cases h)
  | .map _, .list _ => isFalse (by intro h; cases h)

def decEqFVList : (a b : List FieldValue) → Decidable (a = b)
  | [], [] => isTrue rfl
  | [], _ :: _ => isFalse (by intro h; cases h)
  | _ :: _, [] => isFalse (by intro h; cases h)
  | x :: xs, y :: ys =>
    match decEqFV x y with
    | isFalse h => isFalse (by intro hh; cases hh; exact h rfl)
    | isTrue h1 =>
      match decEqFVList xs ys with
      | isTrue h2 => isTrue (by rw [h1, h2])
      | isFalse h => isFalse (by intro hh; cases hh; exact h rfl)

def decEqFVEntries : (a b : List (String × FieldValue)) → Decidable (a = b)
  | [], [] => isTrue rfl
  | [], _ :: _ => isFalse (by intro h; cases h)
  | _ :: _, [] => isFalse (by intro h; cases h)
  | (k, v) :: xs, (k', v') :: ys =>
    if hk : k = k' then
      match decEqFV v v' with
      | isFalse h => isFalse (by intro hh; cases hh; exact h rfl)
      | isTrue h1 =>
        match decEqFVEntries xs ys with
        | isTrue h2 => isTrue (by rw [hk, h1, h2])
        | isFalse h => isFalse (by intro hh; cases hh; exact h rfl)
    else isFalse (by intro hh; cases hh; exact hk rfl)

end

instance : DecidableEq FieldValue := decEqFV

/-- Python truthiness on the modelled values (`bool(x)`). -/
def truthy : FieldValue → Bool
  | .null => false
  | .bool b => b
  | .int n => n != 0
  | .str s => s != ""
  | .list xs => !xs.isEmpty
  | .map m => !m.isEmpty

/-- Whether a value is a Python dict (`isinstance(x, dict)` / `Mapping`). -/
def isMap : FieldValue → Bool
  | .map _ => true
  | _ => false

end FieldValue

/-- Association-list lookup, modelling `d.get(k)` / `d.get(k, default)` on a
Python dict (`none` when the key is absent). -/
def alookup : List (String × FieldValue) → String → Option FieldValue
  | [], _ => none
  | (k', v) :: rest, k => if k' = k then some v else alookup rest k

/-- Association-list store, modelling `d[k] = v` on a Python dict: an existing
key keeps its position and gets the new value, a new key is appended. -/
def aset : List (String × FieldValue) → String → FieldValue → List (String × FieldValue)
  | [], k, v => [(k, v)]
  | (k', v') :: rest, k, v =>
    if k' = k then (k', v) :: rest else (k', v') :: aset rest k v

/-- Keys of a Python dict in iteration (insertion) order. -/
def dictKeys (l : List (String × FieldValue)) : List String :=
  l.map Prod.fst

/-! String helpers for dotted keys, on explicit character lists so that all
definitions compute in the kernel. -/

/-- Split a character list at the first `'.'`; `none` when there is no dot
(the test `"." not in key`). -/
def splitFirstDot : List Char → Option (List Char × List Char)
  | [] => none
  | c :: cs =>
    if c = '.' then some ([], cs)
    else
      match splitFirstDot cs with
      | none => none
      | some (a, b) => some (c :: a, b)

/-- Model of Python `key.split(".", 1)` combined with the membership test:
returns the two halves around the first dot, or `none` when `key` has no dot. -/
def splitOnFirstDot (s : String) : Option (String × String) :=
  match splitFirstDot s.toList with
  | none => none
  | some (a, b) => some (a.asString, b.asString)

theorem splitFirstDot_length :
    ∀ (l : List Char) a b, splitFirstDot l = some (a, b) → b.length < l.length := by
  intro l
  induction l with
  | nil => intro a b h; simp [splitFirstDot] at h
  | cons c cs ih =>
    intro a b h
    simp only [splitFirstDot] at h
    split at h
    · simp only [Option.some.injEq, Prod.mk.injEq] at h
      simp [← h.2, List.length_cons]
    · cases hcs : splitFirstDot cs with
      | none => rw [hcs] at h; simp at h
      | some p =>
        rw [hcs] at h
        obtain ⟨a', b'⟩ := p
        simp only [Option.some.injEq, Prod.mk.injEq] at h
        have := ih a' b' hcs
        rw [← h.2]
        simp only [List.length_cons]
        omega

theorem splitOnFirstDot_length {s p0 p1 : String}
    (h : splitOnFirstDot s = some (p0, p1)) : p1.length < s.length := by
  unfold splitOnFirstDot at h
  cases hl : splitFirstDot s.toList with
  | none => rw [hl] at h; simp at h
  | some p =>
    rw [hl] at h
    obtain ⟨a, b⟩ := p
    simp only [Option.some.injEq, Prod.mk.injEq] at h
    have hlt := splitFirstDot_length s.toList a b hl
    have h1 : p1.length = b.length := by
      rw [← h.2]
      simp [List.asString, String.length]
    have h2 : s.toList.length = s.length := rfl
    omega

/-- Model of Python `dot_string.split(".")`: all segments between dots
(`"" → [""]`, `"a.b" → ["a", "b"]`, `"." → ["", ""]`). -/
def splitAllDots : List Char → List (List Char)
  | [] => [[]]
  | c :: cs =>
    if c = '.' then [] :: splitAllDots cs
    else
      match splitAllDots cs with
      | [] => [[c]]
      | s :: rest => (c :: s) :: rest

/-- Python `s.split(".")` as strings. -/
def splitDots (s : String) : List String :=
  (splitAllDots s.toList).map List.asString

/-- Lexicographic (code-point) comparison of character lists, matching how
Python compares strings with `<=`. -/
def lexLe : List Char → List Char → Bool
  | [], _ => true
  | _ :: _, [] => false
  | a :: as, b :: bs => if a = b then lexLe as bs else decide (a < b)

/-- Python string `<=`, used by `sorted` on keys. -/
def strLe (a b : String) : Bool :=
  lexLe a.toList b.toList

/-- Shorthand for the model of a Python `dict[str, Any]`. -/
abbrev PyDict := List (String × FieldValue)

/-! Definitions from `src/jmullan/logging/formatters.py`. -/

/-- Source `key_to_dict` (jmullan.logging): turn a dotted key and value into a
nested single-entry dictionary, splitting on the first dot only. -/
def key_to_dict (key : String) (value : FieldValue) : PyDict :=
  match h : splitOnFirstDot key with
  | none => [(key, value)]
  | some (p0, p1) => [(p0, FieldValue.map (key_to_dict p1 value))]
termination_by key.length
decreasing_by exact splitOnFirstDot_length h

/-- Loop of source `de_dot`: `while len(arr) > 1: value = {arr.pop(): value}`,
then `return arr.pop(), value` (`arr.pop()` takes the last element). -/
def deDotLoop : List String → FieldValue → String × FieldValue
  | arr, value =>
    if arr.length > 1 then
      deDotLoop arr.dropLast (FieldValue.map [(arr.getLastD "", value)])
    else (arr.getLastD "", value)
termination_by arr _ => arr.length
decreasing_by simp [List.length_dropLast]; omega

/-- Source `de_dot`: turn a value and dotted string key into the head segment
plus a right-to-left nested dictionary. -/
def de_dot (dot_string : String) (value : FieldValue) : String × FieldValue :=
  deDotLoop (splitDots dot_string) value

/-- First-occurrence deduplication of a key list, modelling the keys of the
`keyholder` dict in `union_keys` (`dict.update` keeps the first position). -/
def dedupKeys : List String → List String
  | [] => []
  | k :: rest => k :: dedupKeys (rest.filter (fun x => x ≠ k))
termination_by l => l.length
decreasing_by
  have := List.length_filter_le (fun x => decide (x ≠ k)) rest
  simp only [List.length_cons]
  omega

/-- Source `union_keys`: keys of `dx` then keys of `dy`, order-preserving and
deduplicated, skipping keys whose value equals the empty dict. -/
def union_keys (dx dy : PyDict) : List String :=
  dedupKeys
    (((dx.filter fun p => p.2 ≠ FieldValue.map []).map Prod.fst) ++
      ((dy.filter fun p => p.2 ≠ FieldValue.map []).map Prod.fst))

theorem sizeOf_alookup_le : ∀ (l : PyDict) (k : String), sizeOf (alookup l k) ≤ sizeOf l := by
  intro l k
  induction l with
  | nil => simp [alookup]
  | cons p rest ih =>
    obtain ⟨k', v⟩ := p
    simp only [alookup]
    split
    · simp only [Prod.mk.sizeOf_spec, List.cons.sizeOf_spec]
      have : 0 ≤ sizeOf k' := by positivity
      simp only [Option.some.sizeOf_spec]
      omega
    · simp only [Prod.mk.sizeOf_spec, List.cons.sizeOf_spec]
      omega

mutual

/-- Source `merge_values` (jmullan.logging): deep merge of two values with the
`_EMPTY` sentinel modelled as `none`.  The final Python statement
`return from_ or into` is the truthiness test on `from_`. -/
def merge_values : Option FieldValue → Option FieldValue → FieldValue
  | some (.map f), some (.map i) => .map (mergeLoop f i (union_keys i f) [])
  | some (.map f), _ => .map f
  | _, some (.map i) => .map i
  | none, none => .null
  | none, some v => v
  | some v, none => v
  | some f, some i => if f.truthy then f else i
termination_by a b => (sizeOf a + sizeOf b, 0)

/-- The `for key in union_keys(i, f)` loop inside `merge_values`, skipping
merged values equal to the empty dict. -/
def mergeLoop (f i : PyDict) : List String → PyDict → PyDict
  | [], out => out
  | k :: ks, out =>
    have h1 := sizeOf_alookup_le f k
    have h2 := sizeOf_alookup_le i k
    let v := merge_values (alookup f k) (alookup i k)
    mergeLoop f i ks (if v ≠ FieldValue.map [] then aset out k v else out)
termination_by ks _ => (sizeOf f + sizeOf i + 1, ks.length)

end

/-- Source `merge_dicts` loop.  In the source the collision branch reads
`elif isinstance(dict, value) and isinstance(dict, into_value):` with the
arguments of `isinstance` reversed, so whenever `new_dict.get(key)` is neither
absent nor `None`, Python evaluates `isinstance(dict, value)` with a data
value as second argument and raises `TypeError`; no data value is a type, so
the branch can never be taken and the call fails instead. -/
def mergeDictsGo : PyDict → PyDict → Except String PyDict
  | new, [] => .ok new
  | new, (key, value) :: rest =>
    match alookup new key with
    | none => mergeDictsGo (aset new key value) rest
    | some FieldValue.null => mergeDictsGo (aset new key value) rest
    | some _ => .error "TypeError: isinstance() arg 2 must be a type"

/-- Source `merge_dicts`: start from a copy of `into_dict`, then fold the
entries of `from_dict` into it (raising as described in `mergeDictsGo`). -/
def merge_dicts (into_dict from_dict : PyDict) : Except String PyDict :=
  mergeDictsGo into_dict from_dict

/-- Loop of source `unflatten_dict`:
`top_level = merge_dicts(top_level, key_to_dict(key, val))` per entry,
propagating any exception raised by `merge_dicts`. -/
def unflattenGo : PyDict → PyDict → Except String PyDict
  | top, [] => .ok top
  | top, (key, val) :: rest =>
    match merge_dicts top (key_to_dict key val) with
    | .ok t => unflattenGo t rest
    | .error e => .error e

/-- Source `unflatten_dict` (jmullan.logging). -/
def unflatten_dict (value : PyDict) : Except String PyDict :=
  unflattenGo [] value

/-- Loop of source `flatten_dict`: build `top_level` entry by entry, splicing
in the recursively flattened entries of dict values with dotted keys. -/
def flattenGo : PyDict → PyDict → PyDict
  | top, [] => top
  | top, (key, FieldValue.map sub) :: rest =>
    flattenGo ((flattenGo [] sub).foldl (fun t p => aset t (key ++ "." ++ p.1) p.2) top) rest
  | top, (key, val) :: rest => flattenGo (aset top key val) rest
termination_by _ l => sizeOf l

/-- Source `flatten_dict`: add dots to all nested dict fields. -/
def flatten_dict (value : PyDict) : PyDict :=
  flattenGo [] value

mutual

/-- Source `normalize_dict` on an arbitrary value: non-dicts are returned
unchanged (`if not isinstance(value, dict): return value`), spelled out by
constructor. -/
def normalizeValue : FieldValue → FieldValue
  | .map m => .map (normalizeEntries m [])
  | .null => .null
  | .bool b => .bool b
  | .int n => .int n
  | .str s => .str s
  | .list xs => .list xs

/-- The entry loop of source `normalize_dict`: normalize dict values, map
`normalize_dict` over list values (other values pass through, spelled out by
constructor), then expand the key with `de_dot` and merge into the
accumulated output with `merge_values`. -/
def normalizeEntries : PyDict → PyDict → PyDict
  | [], out => out
  | (key, val) :: rest, out =>
    let normalized :=
      match val with
      | FieldValue.map m => FieldValue.map (normalizeEntries m [])
      | FieldValue.list xs => FieldValue.list (normalizeList xs)
      | FieldValue.null => FieldValue.null
      | FieldValue.bool b => FieldValue.bool b
      | FieldValue.int n => FieldValue.int n
      | FieldValue.str s => FieldValue.str s
    let kv := de_dot key normalized
    normalizeEntries rest (aset out kv.1 (merge_values (some kv.2) (alookup out kv.1)))

/-- The list comprehension `[normalize_dict(x) for x in val]`. -/
def normalizeList : List FieldValue → List FieldValue
  | [] => []
  | x :: xs => normalizeValue x :: normalizeList xs

end

/-- Source `normalize_dict` (jmullan.logging) applied to a dict. -/
def normalize_dict (value : PyDict) : PyDict :=
  normalizeEntries value []

/-! Definitions from `src/jmullan_logging/formatters.py` where they differ
from the jmullan.logging versions. -/

namespace JmullanLogging

/-- Source `key_to_dict` (jmullan_logging): same shape as the jmullan.logging
version except that the recursive case returns `{key: ...}` with the whole
dotted `key` instead of `{parts[0]: ...}`. -/
def key_to_dict (key : String) (value : FieldValue) : PyDict :=
  match h : splitOnFirstDot key with
  | none => [(key, value)]
  | some (_, p1) => [(key, FieldValue.map (key_to_dict p1 value))]
termination_by key.length
decreasing_by exact splitOnFirstDot_length h

mutual

/-- Source `merge_values` (jmullan_logging): an if/elif chain rather than a
`match`; the final `else` returns `from_` unconditionally. -/
def merge_values : Option FieldValue → Option FieldValue → FieldValue
  | some (.map f), some (.map i) => .map (mergeLoop f i (union_keys i f) [])
  | some (.map f), _ => .map f
  | _, some (.map i) => .map i
  | none, none => .null
  | none, some v => v
  | some v, none => v
  | some f, some _ => f
termination_by a b => (sizeOf a + sizeOf b, 0)

/-- The `for key in union_keys(into, from_)` loop of the jmullan_logging
`merge_values`. -/
def mergeLoop (f i : PyDict) : List String → PyDict → PyDict
  | [], out => out
  | k :: ks, out =>
    have h1 := sizeOf_alookup_le f k
    have h2 := sizeOf_alookup_le i k
    let v := merge_values (alookup f k) (alookup i k)
    mergeLoop f i ks (if v ≠ FieldValue.map [] then aset out k v else out)
termination_by ks _ => (sizeOf f + sizeOf i + 1, ks.length)

end

end JmullanLogging

/-! The JSON serializer: `json.dumps(obj, sort_keys=False, separators=(",", ":"))`
with `ensure_ascii=True`, as used by `ECSJsonFormatter.format_json`. -/

/-- Lowercase hex digit, as produced by Python's json `\uXXXX` escapes. -/
def hexDigit (n : Nat) : Char :=
  if n < 10 then Char.ofNat (48 + n) else Char.ofNat (87 + n)

/-- Four lowercase hex digits of a code unit. -/
def toHex4 (n : Nat) : List Char :=
  [hexDigit (n / 4096 % 16), hexDigit (n / 256 % 16), hexDigit (n / 16 % 16), hexDigit (n % 16)]

/-- Escape one character the way Python `json.dumps` does with the default
`ensure_ascii=True`: short escapes for quote, backslash and common control
characters, `\u00xx` for the other control characters, `\uxxxx` (with a
surrogate pair above the BMP) for non-ASCII, everything else verbatim. -/
def jsonEscapeChar (c : Char) : List Char :=
  if c = '"' then ['\\', '"']
  else if c = '\\' then ['\\', '\\']
  else if c = Char.ofNat 10 then ['\\', 'n']
  else if c = Char.ofNat 13 then ['\\', 'r']
  else if c = Char.ofNat 9 then ['\\', 't']
  else if c = Char.ofNat 8 then ['\\', 'b']
  else if c = Char.ofNat 12 then ['\\', 'f']
  else if c.toNat < 32 then '\\' :: 'u' :: toHex4 c.toNat
  else if c.toNat < 127 then [c]
  else if c.toNat < 65536 then '\\' :: 'u' :: toHex4 c.toNat
  else
    '\\' :: 'u' :: toHex4 (55296 + (c.toNat - 65536) / 1024) ++
      ('\\' :: 'u' :: toHex4 (56320 + (c.toNat - 65536) % 1024))

/-- A JSON string literal: quotes around the escaped characters. -/
def jsonQuote (s : String) : String :=
  "\"" ++ (s.toList.flatMap jsonEscapeChar).asString ++ "\""

mutual

/-- Python `json.dumps` with `separators=(",", ":")` on a modelled value. -/
def jsonDumps : FieldValue → String
  | .null => "null"
  | .bool b => if b then "true" else "false"
  | .int n => toString n
  | .str s => jsonQuote s
  | .list xs => "[" ++ jsonDumpsList xs ++ "]"
  | .map m => "\x7b" ++ jsonDumpsEntries m ++ "\x7d"

/-- Comma-joined serialization of a JSON array's elements. -/
def jsonDumpsList : List FieldValue → String
  | [] => ""
  | [x] => jsonDumps x
  | x :: y :: rest => jsonDumps x ++ "," ++ jsonDumpsList (y :: rest)

/-- Comma-joined serialization of a JSON object's entries. -/
def jsonDumpsEntries : List (String × FieldValue) → String
  | [] => ""
  | [(k, v)] => jsonQuote k ++ ":" ++ jsonDumps v
  | (k, v) :: p :: rest => jsonQuote k ++ ":" ++ jsonDumps v ++ "," ++ jsonDumpsEntries (p :: rest)

end

/-- Python string `sorted`, here as an insertion sort with the code-point
comparison `strLe` (sorting is unique on the duplicate-free key lists it is
applied to). -/
def pySorted (l : List String) : List String :=
  l.insertionSort (fun a b => strLe a b)

/-- The literal `first_keys = ["@timestamp", "log.level", "message"]` of
`ECSJsonFormatter.format_json`. -/
def firstKeys : List String := ["@timestamp", "log.level", "message"]

/-- The dictionary built by source `ECSJsonFormatter.format_json` before
serialization: `ordered_event` (the present first keys, in `first_keys`
order, popped from the event) updated with `normalize_dict` of the remaining
entries taken in sorted key order. -/
def formatJsonObject (event : PyDict) : PyDict :=
  let ordered_event :=
    (firstKeys.filter fun k => (alookup event k).isSome).map
      (fun k => (k, (alookup event k).getD FieldValue.null))
  let remaining := event.filter fun p => p.1 ∉ firstKeys
  let normalized_event :=
    normalize_dict ((pySorted (dictKeys remaining)).map
      (fun k => (k, (alookup remaining k).getD FieldValue.null)))
  normalized_event.foldl (fun acc p => aset acc p.1 p.2) ordered_event

/-- Source `ECSJsonFormatter.format_json`: serialize `formatJsonObject` with
`json.dumps(..., sort_keys=False, separators=(",", ":"))`. -/
def format_json (event : PyDict) : String :=
  jsonDumps (FieldValue.map (formatJsonObject event))

/-! Definitions from `src/jmullan_logging/helpers.py`: the context stack and
the argument-capture decorator. -/

/-- The `LogState` class: a Python list of frames, the last element being the
top of the stack. -/
structure LogState where
  stack : List PyDict
  deriving DecidableEq

namespace LogState

/-- The `LogState.__init__` state: `self.stack = [{}]`. -/
def init : LogState := ⟨[[]]⟩

/-- Source `LogState.top`: if the stack is empty, append an empty frame
first; return `self.stack[-1]` together with the possibly extended stack. -/
def top (s : LogState) : PyDict × LogState :=
  if s.stack.isEmpty then ([], ⟨s.stack ++ [[]]⟩)
  else (s.stack.getLastD [], s)

/-- Source `LogState.pop`: `if self.stack: return self.stack.pop()` (remove
and return the last frame), `return {}` on an empty stack. -/
def pop (s : LogState) : PyDict × LogState :=
  if s.stack.isEmpty then ([], s)
  else (s.stack.getLastD [], ⟨s.stack.dropLast⟩)

/-- Source `LogState.push`: copy the top frame, update it with the new
fields, append it. -/
def push (s : LogState) (kwargs : PyDict) : LogState :=
  let ts := top s
  ⟨ts.2.stack ++ [kwargs.foldl (fun acc p => aset acc p.1 p.2) ts.1]⟩

end LogState

/-- Source `current_logging_context` observed as a value:
`get_log_state().top()` (no copy is taken; aliasing is modelled separately
below). -/
def current_logging_context (s : LogState) : PyDict :=
  (LogState.top s).1

/-! A small heap model for the aliasing behaviour of
`current_logging_context`: frames live in a store and the `LogState` stack
holds references, matching how Python dict objects are shared. -/

/-- Store of frame objects, addressed by allocation index. -/
structure Heap where
  frames : List PyDict
  deriving DecidableEq

/-- Dereference a frame. -/
def heapRead (h : Heap) (r : Nat) : PyDict :=
  h.frames.getD r []

/-- Mutate one key of the frame object behind reference `r`
(`frame[k] = v`). -/
def heapWriteKey (h : Heap) (r : Nat) (k : String) (v : FieldValue) : Heap :=
  ⟨h.frames.set r (aset (heapRead h r) k v)⟩

/-- The reference-level stack of a `LogState`. -/
structure LogStateRefs where
  stack : List Nat
  deriving DecidableEq

/-- Source `LogState.top` at the reference level: returns the reference to
`self.stack[-1]` (allocating an empty base frame when the stack is empty),
not a copy of the frame. -/
def topRef (h : Heap) (s : LogStateRefs) : Nat × Heap × LogStateRefs :=
  if s.stack.isEmpty then
    (h.frames.length, ⟨h.frames ++ [[]]⟩, ⟨s.stack ++ [h.frames.length]⟩)
  else (s.stack.getLastD 0, h, s)

/-- Source `current_logging_context` at the reference level: it returns
`get_log_state().top()` directly, i.e. the reference to the live top frame. -/
def currentLoggingContextRef (h : Heap) (s : LogStateRefs) : Nat × Heap × LogStateRefs :=
  topRef h s

/-- The fields a later query of the stack observes: the frame behind the top
reference. -/
def topFields (h : Heap) (s : LogStateRefs) : PyDict :=
  heapRead h (s.stack.getLastD 0)

/-! The argument-capture decorator `logging_context_from_args`. -/

/-- A function signature as `inspect.signature` exposes it: formal parameter
names plus whether the function has a `**kwargs` catch-all. -/
structure Signature where
  params : List String
  hasKwargs : Bool
  deriving DecidableEq

/-- A Python function object: either an undecorated function or the
`_wrapper` closure produced by `_decorate` (which records the requested
argument names, as the attached `_logging_context_from_args` does). -/
inductive PyFunc where
  | base (sig : Signature)
  | wrapped (argNames : List String) (inner : PyFunc)
  deriving DecidableEq

/-- `inspect.signature` through `@wraps` wrappers (which forward
`__wrapped__`). -/
def PyFunc.signature : PyFunc → Signature
  | .base sig => sig
  | .wrapped _ f => f.signature

/-- Source `_check_signature_has_args`: with a `**kwargs` catch-all nothing
is reported; otherwise each requested name missing from the formal
parameters produces one warning (returned here as the list of offending
names). -/
def checkSignatureHasArgs (sig : Signature) (argNames : List String) : List String :=
  if sig.hasKwargs then []
  else argNames.filter fun n => n ∉ sig.params

/-- Source `_decorate` inside `logging_context_from_args`: it always builds
and returns `_wrapper` around `f`; there is no branch returning `f` itself. -/
def decorate (argNames : List String) (f : PyFunc) : PyFunc :=
  .wrapped argNames f

/-- The result of `signature.bind(*args, **kwargs)`: matched formal
arguments plus the extra keyword arguments collected by a `**kwargs`
catch-all. -/
structure BoundArguments where
  arguments : PyDict
  kwargs : PyDict

/-- Source `_log_values_from_bound_arguments`: pick each requested name from
`bound.arguments`, else from `bound.kwargs`, else skip it. -/
def logValuesFromBoundArguments (argNames : List String) (bound : BoundArguments) : PyDict :=
  argNames.foldl
    (fun context n =>
      match alookup bound.arguments n with
      | some v => aset context n v
      | none =>
        match alookup bound.kwargs n with
        | some v => aset context n v
        | none => context)
    []

/-! Basic dictionary lemmas. -/

theorem alookup_aset_self (l : PyDict) (k : String) (v : FieldValue) :
    alookup (aset l k v) k = some v := by
  induction l with
  | nil => simp [aset, alookup]
  | cons p rest ih =>
    obtain ⟨k', v'⟩ := p
    by_cases h : k' = k
    · simp [aset, alookup, h]
    · simp [aset, alookup, h, ih]

theorem alookup_aset_ne (l : PyDict) (k k' : String) (v : FieldValue) (h : k' ≠ k) :
    alookup (aset l k v) k' = alookup l k' := by
  induction l with
  | nil =>
    simp only [aset, alookup]
    rw [if_neg (fun hh => h hh.symm)]
  | cons p rest ih =>
    obtain ⟨k0, v0⟩ := p
    by_cases h0 : k0 = k
    · subst h0
      simp only [aset, if_pos rfl, alookup]
      rw [if_neg (fun hh => h hh.symm), if_neg (fun hh => h hh.symm)]
    · simp only [aset, if_neg h0, alookup]
      by_cases h1 : k0 = k'
      · simp [h1]
      · simp [h1, ih]

theorem aset_fresh_append (l : PyDict) (k : String) (v : FieldValue) (h : k ∉ dictKeys l) :
    aset l k v = l ++ [(k, v)] := by
  induction l with
  | nil => simp [aset]
  | cons p rest ih =>
    obtain ⟨k0, v0⟩ := p
    simp only [dictKeys, List.map_cons, List.mem_cons] at h
    push_neg at h
    simp only [aset, if_neg (Ne.symm h.1)]
    rw [ih]
    · simp
    · simpa [dictKeys] using h.2

/-- Key list after `d[k] = v`: unchanged when `k` is present, appended
otherwise. -/
def addKey (ks : List String) (k : String) : List String :=
  if k ∈ ks then ks else ks ++ [k]

theorem dictKeys_aset (l : PyDict) (k : String) (v : FieldValue) :
    dictKeys (aset l k v) = addKey (dictKeys l) k := by
  induction l with
  | nil => simp [aset, dictKeys, addKey]
  | cons p rest ih =>
    obtain ⟨k0, v0⟩ := p
    by_cases h0 : k0 = k
    · subst h0
      simp [aset, dictKeys, addKey]
    · have step : aset ((k0, v0) :: rest) k v = (k0, v0) :: aset rest k v := by
        simp [aset, h0]
      rw [step]
      show k0 :: dictKeys (aset rest k v) = addKey (k0 :: dictKeys rest) k
      rw [ih]
      unfold addKey
      by_cases hk : k ∈ dictKeys rest
      · rw [if_pos hk, if_pos (List.mem_cons_of_mem _ hk)]
      · rw [if_neg hk, if_neg]
        · simp
        · simp only [List.mem_cons]
          push_neg
          exact ⟨Ne.symm h0, hk⟩

/-! Scalar-collision behaviour of both `merge_values` implementations
(shared helper lemmas). -/

theorem merge_values_scalar (f i : FieldValue)
    (hf : f.isMap = false) (hi : i.isMap = false) :
    merge_values (some f) (some i) = if f.truthy then f else i := by
  cases f <;> cases i <;> simp_all [merge_values, FieldValue.isMap]

theorem jl_merge_values_scalar (f i : FieldValue)
    (hf : f.isMap = false) (hi : i.isMap = false) :
    JmullanLogging.merge_values (some f) (some i) = f := by
  cases f <;> cases i <;>
    simp_all [JmullanLogging.merge_values, FieldValue.isMap]

/-! Claim theorems: the structural merge engine. -/

/-- C8: `merge_values` satisfies the five concrete equations
`merge_values({}, {}) == {}`,
`merge_values({"a":"b"}, {"c":"d"}) == {"c":"d","a":"b"}` (into's keys first),
`merge_values({"a":"b"}, {"a":"d"}) == {"a":"b"}`,
`merge_values({"a":"b"}, {"a":{}}) == {}` and
`merge_values({"a":"b"}, {"a":{"c":"d"}}) == {"a":{"c":"d"}}`. -/
theorem merge_values_concrete_equations :
    merge_values (some (.map [])) (some (.map [])) = .map [] ∧
    merge_values (some (.map [("a", .str "b")])) (some (.map [("c", .str "d")])) =
      .map [("c", .str "d"), ("a", .str "b")] ∧
    merge_values (some (.map [("a", .str "b")])) (some (.map [("a", .str "d")])) =
      .map [("a", .str "b")] ∧
    merge_values (some (.map [("a", .str "b")])) (some (.map [("a", .map [])])) =
      .map [] ∧
    merge_values (some (.map [("a", .str "b")])) (some (.map [("a", .map [("c", .str "d")])])) =
      .map [("a", .map [("c", .str "d")])] := by
  refine ⟨?_, ?_, ?_, ?_, ?_⟩ <;>
    simp [merge_values, mergeLoop, union_keys, dedupKeys, aset, alookup, FieldValue.truthy]

/-- C10: on two present non-dict arguments the jmullan.logging `merge_values`
returns `from_ or into` (so `into` is returned exactly when `from_` is falsy),
the jmullan_logging version returns `from_` unconditionally, and the two
implementations disagree at `from_ = 0`, `into = "d"`, so they are not
extensionally equal. -/
theorem merge_values_falsy_from_flips :
    (∀ f i : FieldValue, f.isMap = false → i.isMap = false →
      merge_values (some f) (some i) = if f.truthy then f else i) ∧
    (∀ f i : FieldValue, f.isMap = false → i.isMap = false →
      JmullanLogging.merge_values (some f) (some i) = f) ∧
    merge_values (some (.int 0)) (some (.str "d")) = .str "d" ∧
    JmullanLogging.merge_values (some (.int 0)) (some (.str "d")) = .int 0 ∧
    FieldValue.str "d" ≠ FieldValue.int 0 := by
  refine ⟨merge_values_scalar, jl_merge_values_scalar, ?_, ?_, ?_⟩
  · simp [merge_values, FieldValue.truthy]
  · simp [JmullanLogging.merge_values]
  · intro h
    cases h

/-- C10 witness: the universally quantified parts of
`merge_values_falsy_from_flips` evaluated at `from_ = "x"`, `into = "y"`. -/
theorem merge_values_falsy_from_flips_witness :
    merge_values (some (.str "x")) (some (.str "y")) =
      (if (FieldValue.str "x").truthy then .str "x" else .str "y") ∧
    JmullanLogging.merge_values (some (.str "x")) (some (.str "y")) = .str "x" :=
  ⟨merge_values_falsy_from_flips.1 (.str "x") (.str "y") rfl rfl,
    merge_values_falsy_from_flips.2.1 (.str "x") (.str "y") rfl rfl⟩

/-- C1 counterexample: for the present non-map values `from_ = "b"`,
`into = "d"`, `merge_values` returns `"b"`, the first argument, not the
second: the claim that `into` wins on scalar collisions is false. -/
theorem merge_values_into_does_not_win :
    merge_values (some (.str "b")) (some (.str "d")) = .str "b" ∧
    FieldValue.str "b" ≠ FieldValue.str "d" := by
  constructor
  · simp [merge_values, FieldValue.truthy]
  · decide

/-- C1 (amended): for every two present non-map values, the jmullan_logging
`merge_values` returns `from_` (the first argument wins), and the
jmullan.logging version returns `from_` whenever `from_` is truthy and
`into` only when `from_` is falsy. -/
theorem merge_values_scalar_from_wins (f i : FieldValue)
    (hf : f.isMap = false) (hi : i.isMap = false) :
    JmullanLogging.merge_values (some f) (some i) = f ∧
    (f.truthy = true → merge_values (some f) (some i) = f) ∧
    (f.truthy = false → merge_values (some f) (some i) = i) := by
  refine ⟨jl_merge_values_scalar f i hf hi, ?_, ?_⟩
  · intro ht
    rw [merge_values_scalar f i hf hi, if_pos ht]
  · intro ht
    rw [merge_values_scalar f i hf hi, if_neg (by simp [ht])]

/-- C1 witness: `merge_values_scalar_from_wins` at `from_ = "b"`,
`into = "d"`. -/
theorem merge_values_scalar_from_wins_witness :
    JmullanLogging.merge_values (some (.str "b")) (some (.str "d")) = .str "b" ∧
    (FieldValue.truthy (.str "b") = true →
      merge_values (some (.str "b")) (some (.str "d")) = .str "b") ∧
    (FieldValue.truthy (.str "b") = false →
      merge_values (some (.str "b")) (some (.str "d")) = .str "d") :=
  merge_values_scalar_from_wins (.str "b") (.str "d") rfl rfl

/-- C5: evaluating both `key_to_dict` implementations at the dotted path
`"a.b"`: the jmullan_logging version returns a map whose sole key is the
whole dotted path `"a.b"` (not the first segment), while the jmullan.logging
version returns the first segment `"a"` as the claim describes. -/
theorem key_to_dict_divergence :
    JmullanLogging.key_to_dict "a.b" (.str "v") =
      [("a.b", FieldValue.map [("b", .str "v")])] ∧
    key_to_dict "a.b" (.str "v") = [("a", FieldValue.map [("b", .str "v")])] := by
  constructor
  · simp [JmullanLogging.key_to_dict, splitOnFirstDot, splitFirstDot]
    decide
  · simp [key_to_dict, splitOnFirstDot, splitFirstDot]
    decide

/-- C4: `unflatten_dict` on the flat map `{"a.b": 1, "a.c": 2}`, whose two
dotted keys share the head segment `"a"`, raises `TypeError` from the
reversed `isinstance(dict, value)` test inside `merge_dicts` instead of
returning a merged result. -/
theorem unflatten_dict_raises_on_shared_head :
    unflatten_dict [("a.b", .int 1), ("a.c", .int 2)] =
      .error "TypeError: isinstance() arg 2 must be a type" := by
  simp [unflatten_dict, unflattenGo, merge_dicts, mergeDictsGo, key_to_dict,
    splitOnFirstDot, splitFirstDot, aset, alookup]

/-! Claim theorems: the context stack. -/

/-- C3 counterexample: on the freshly initialized stack `[{}]` (only the
implicit base frame), `pop` removes the base frame: the resulting stack is
empty and the state has changed, so pop is not a no-op and does leave the
stack empty. -/
theorem pop_base_frame_empties_stack :
    LogState.pop LogState.init = ([], LogState.mk []) ∧
    (LogState.pop LogState.init).2 ≠ LogState.init := by
  decide

/-- C3 (amended): `pop` never raises: on a stack holding only the implicit
base frame it removes and returns that empty frame, leaving the stack empty
(not a no-op); on an already-empty stack it returns an empty map and leaves
the stack unchanged; and a subsequent `top` query on the emptied stack
re-creates the base frame and returns an empty map. -/
theorem pop_total_behaviour :
    LogState.pop LogState.init = ([], LogState.mk []) ∧
    (∀ s : LogState, s.stack = [] → LogState.pop s = ([], s)) ∧
    current_logging_context (LogState.mk []) = [] ∧
    (LogState.top (LogState.mk [])).2 = LogState.init := by
  refine ⟨by decide, ?_, by decide, by decide⟩
  intro s hs
  obtain ⟨stack⟩ := s
  subst hs
  decide

/-- C3 witness: the quantified part of `pop_total_behaviour` at the empty
stack. -/
theorem pop_total_behaviour_witness :
    LogState.pop (LogState.mk []) = ([], LogState.mk []) :=
  pop_total_behaviour.2.1 (LogState.mk []) rfl

/-- C7 counterexample: `current_logging_context` returns the live top frame,
not a copy.  In the heap model, writing the key `"k"` through the reference
it returns changes what a subsequent query of the stack's top frame
observes, contradicting the claim that mutating the returned map leaves the
stack's frames unchanged. -/
theorem current_aliasing_counterexample :
    topFields
        (heapWriteKey (Heap.mk [[("x", FieldValue.str "1")]])
          (currentLoggingContextRef (Heap.mk [[("x", FieldValue.str "1")]])
              (LogStateRefs.mk [0])).1
          "k" (FieldValue.str "2"))
        (LogStateRefs.mk [0]) ≠
      topFields (Heap.mk [[("x", FieldValue.str "1")]]) (LogStateRefs.mk [0]) := by
  decide

/-- C7 (amended): `current_logging_context` returns the top frame object
itself (an alias, not a copy): for every valid state, writing a key through
the returned reference updates exactly the frame a subsequent query of the
stack returns, i.e. the mutation is visible to the stack. -/
theorem current_alias_mutation_visible (h : Heap) (s : LogStateRefs)
    (k : String) (v : FieldValue)
    (hne : s.stack ≠ []) (hlt : s.stack.getLastD 0 < h.frames.length) :
    topFields (heapWriteKey h (currentLoggingContextRef h s).1 k v) s =
      aset (topFields h s) k v := by
  have hfst : (currentLoggingContextRef h s).1 = s.stack.getLastD 0 := by
    simp [currentLoggingContextRef, topRef, List.isEmpty_iff, hne]
  rw [hfst]
  unfold topFields heapWriteKey heapRead
  simp only []
  rw [List.getD_eq_getElem?_getD, List.getD_eq_getElem?_getD,
    List.getElem?_set_self hlt]
  simp [List.getD_eq_getElem?_getD]

/-- C7 witness: `current_alias_mutation_visible` at the concrete one-frame
state. -/
theorem current_alias_mutation_visible_witness :
    topFields
        (heapWriteKey (Heap.mk [[("x", FieldValue.str "1")]])
          (currentLoggingContextRef (Heap.mk [[("x", FieldValue.str "1")]])
              (LogStateRefs.mk [0])).1
          "y" (FieldValue.str "2"))
        (LogStateRefs.mk [0]) =
      aset (topFields (Heap.mk [[("x", FieldValue.str "1")]]) (LogStateRefs.mk [0]))
        "y" (FieldValue.str "2") :=
  current_alias_mutation_visible (Heap.mk [[("x", FieldValue.str "1")]])
    (LogStateRefs.mk [0]) "y" (FieldValue.str "2") (by decide) (by decide)

/-! Claim theorems: the argument-capture decorator. -/

/-- C6 counterexample: with the single requested name `"nope"`, which does
not resolve against the signature `(x)`, `_decorate` still returns a wrapper
and not the original function. -/
theorem decorate_returns_wrapper :
    decorate ["nope"] (PyFunc.base (Signature.mk ["x"] false)) =
      PyFunc.wrapped ["nope"] (PyFunc.base (Signature.mk ["x"] false)) ∧
    decorate ["nope"] (PyFunc.base (Signature.mk ["x"] false)) ≠
      PyFunc.base (Signature.mk ["x"] false) := by
  decide

/-- C6 (amended): `_decorate` always returns the `_wrapper` closure, never
the original function object, even when no requested name resolves; in that
case the context captured at call time is empty, so the wrapper pushes an
empty frame and is behaviourally equivalent to the original. -/
theorem decorate_always_wraps :
    (∀ (ns : List String) (f : PyFunc),
      decorate ns f = PyFunc.wrapped ns f ∧ decorate ns f ≠ f) ∧
    (∀ (ns : List String) (bound : BoundArguments),
      (∀ n ∈ ns, alookup bound.arguments n = none ∧ alookup bound.kwargs n = none) →
      logValuesFromBoundArguments ns bound = []) := by
  constructor
  · intro ns f
    refine ⟨rfl, ?_⟩
    intro hcontra
    have hsz := congrArg sizeOf hcontra
    simp only [decorate, PyFunc.wrapped.sizeOf_spec] at hsz
    omega
  · intro ns bound hnone
    unfold logValuesFromBoundArguments
    have aux : ∀ (l : List String) (acc : PyDict),
        (∀ n ∈ l, alookup bound.arguments n = none ∧ alookup bound.kwargs n = none) →
        l.foldl
          (fun context n =>
            match alookup bound.arguments n with
            | some v => aset context n v
            | none =>
              match alookup bound.kwargs n with
              | some v => aset context n v
              | none => context)
          acc = acc := by
      intro l
      induction l with
      | nil => intro acc _; rfl
      | cons n rest ih =>
        intro acc hl
        have hn := hl n (List.mem_cons_self n rest)
        have hrest : ∀ m ∈ rest,
            alookup bound.arguments m = none ∧ alookup bound.kwargs m = none :=
          fun m hm => hl m (List.mem_cons_of_mem n hm)
        simp only [List.foldl_cons, hn.1, hn.2]
        exact ih acc hrest
    exact aux ns [] hnone

/-- C6 witness: `decorate_always_wraps` applied to the requested name
`"nope"` against a function of signature `(x)` and a call binding neither
arguments nor kwargs. -/
theorem decorate_always_wraps_witness :
    (decorate ["nope"] (PyFunc.base (Signature.mk ["x"] false)) =
        PyFunc.wrapped ["nope"] (PyFunc.base (Signature.mk ["x"] false)) ∧
      decorate ["nope"] (PyFunc.base (Signature.mk ["x"] false)) ≠
        PyFunc.base (Signature.mk ["x"] false)) ∧
    logValuesFromBoundArguments ["nope"] (BoundArguments.mk [] []) = [] :=
  ⟨decorate_always_wraps.1 ["nope"] (PyFunc.base (Signature.mk ["x"] false)),
    decorate_always_wraps.2 ["nope"] (BoundArguments.mk [] [])
      (by intro n _; exact ⟨rfl, rfl⟩)⟩

/-! Characterization of `de_dot` via a structural path-wrapping function. -/

/-- Right-to-left nesting of a value under a list of segments:
`wrapPath [b, c] v = {b: {c: v}}`. -/
def wrapPath : List String → FieldValue → FieldValue
  | [], v => v
  | s :: rest, v => .map [(s, wrapPath rest v)]

theorem splitAllDots_ne_nil (l : List Char) : splitAllDots l ≠ [] := by
  cases l with
  | nil => simp [splitAllDots]
  | cons c cs =>
    simp only [splitAllDots]
    split
    · simp
    · split
      · simp
      · simp

theorem splitDots_ne_nil (s : String) : splitDots s ≠ [] := by
  unfold splitDots
  simp [splitAllDots_ne_nil]

theorem wrapPath_concat (xs : List String) (x : String) (v : FieldValue) :
    wrapPath (xs ++ [x]) v = wrapPath xs (.map [(x, v)]) := by
  induction xs with
  | nil => simp [wrapPath]
  | cons s rest ih => simp [wrapPath, ih]

theorem deDotLoop_spec :
    ∀ (n : Nat) (arr : List String) (v : FieldValue), arr.length = n → arr ≠ [] →
      deDotLoop arr v = (arr.headD "", wrapPath arr.tail v) := by
  intro n
  induction n using Nat.strong_induction_on with
  | _ n ih =>
    intro arr v hlen hne
    rw [deDotLoop]
    by_cases hgt : arr.length > 1
    · rw [if_pos hgt]
      obtain ⟨a, t⟩ : ∃ a t, arr = a :: t := by
        cases arr with
        | nil => exact absurd rfl hne
        | cons a t => exact ⟨a, t, rfl⟩
      obtain ⟨t, rfl⟩ := t
      have htne : t ≠ [] := by
        intro hh
        subst hh
        simp at hgt
      have hdl : (a :: t).dropLast = a :: t.dropLast := by
        cases t with
        | nil => exact absurd rfl htne
        | cons b r => simp
      have hgl : (a :: t).getLastD "" = t.getLastD "" := by
        cases t with
        | nil => exact absurd rfl htne
        | cons b r => simp [List.getLastD_cons]
      rw [hdl, hgl]
      have hdlen : (a :: t.dropLast).length < n := by
        rw [← hlen]
        simp only [List.length_cons, List.length_dropLast]
        cases t with
        | nil => exact absurd rfl htne
        | cons b r => simp
      rw [ih _ hdlen (a :: t.dropLast) _ rfl (by simp)]
      simp only [List.headD_cons, List.tail_cons, Prod.mk.injEq, true_and]
      obtain ⟨t0, tl, hlast, hinit⟩ :
          ∃ t0 tl, t.getLastD "" = tl ∧ t.dropLast = t0 ∧ t = t0 ++ [tl] := by
        cases hte : t.reverse with
        | nil => simp at hte; exact absurd hte htne
        | cons x xs =>
          refine ⟨xs.reverse, x, ?_, ?_, ?_⟩
          · have : t = (x :: xs).reverse := by rw [← hte, List.reverse_reverse]
            rw [this]
            simp [List.getLastD_concat]
          · have : t = (x :: xs).reverse := by rw [← hte, List.reverse_reverse]
            rw [this]
            simp
          · have : t = (x :: xs).reverse := by rw [← hte, List.reverse_reverse]
            rw [this]
            simp
      rw [hlast, hinit.2, List.dropLast_concat, wrapPath_concat]
    · rw [if_neg hgt]
      obtain ⟨a, t⟩ : ∃ a t, arr = a :: t := by
        cases arr with
        | nil => exact absurd rfl hne
        | cons a t => exact ⟨a, t, rfl⟩
      obtain ⟨t, rfl⟩ := t
      have : t = [] := by
        cases t with
        | nil => rfl
        | cons b r => simp at hgt
      subst this
      simp [wrapPath]

/-- The first dot-separated segment of a key (the top-level key `de_dot`
produces). -/
def headSegment (s : String) : String :=
  (splitDots s).headD ""

theorem de_dot_eq (s : String) (v : FieldValue) :
    de_dot s v = (headSegment s, wrapPath (splitDots s).tail v) := by
  unfold de_dot headSegment
  exact deDotLoop_spec (splitDots s).length (splitDots s) v rfl (splitDots_ne_nil s)

theorem de_dot_fst (s : String) (v : FieldValue) :
    (de_dot s v).1 = headSegment s := by
  rw [de_dot_eq]

/-! Key bookkeeping for `normalize_dict` and `format_json`. -/

theorem normalizeEntries_keys (l : PyDict) :
    ∀ out : PyDict,
      dictKeys (normalizeEntries l out) =
        l.foldl (fun ks p => addKey ks (headSegment p.1)) (dictKeys out) := by
  induction l with
  | nil => intro out; simp [normalizeEntries]
  | cons p rest ih =>
    intro out
    obtain ⟨key, val⟩ := p
    cases val <;>
      (simp only [normalizeEntries]
       rw [ih, dictKeys_aset, de_dot_fst]
       simp only [List.foldl_cons])

theorem foldl_addKey_append (ks : List String) :
    ∀ acc : List String,
      ks.foldl addKey acc = acc ++ dedupKeys (ks.filter fun k => k ∉ acc) := by
  induction ks with
  | nil => intro acc; simp [dedupKeys]
  | cons k rest ih =>
    intro acc
    simp only [List.foldl_cons]
    by_cases hk : k ∈ acc
    · rw [show addKey acc k = acc from if_pos hk, ih]
      have : (List.filter (fun x => decide (x ∉ acc)) (k :: rest)) =
          List.filter (fun x => decide (x ∉ acc)) rest := by
        simp [List.filter_cons, hk]
      simp only [this]
    · rw [show addKey acc k = acc ++ [k] from if_neg hk, ih]
      have h1 : (List.filter (fun x => decide (x ∉ acc)) (k :: rest)) =
          k :: List.filter (fun x => decide (x ∉ acc)) rest := by
        simp [List.filter_cons, hk]
      have h2 : (List.filter (fun x => decide (x ∉ acc ++ [k])) rest) =
          List.filter (fun x => decide (x ≠ k))
            (List.filter (fun x => decide (x ∉ acc)) rest) := by
        rw [List.filter_filter]
        apply List.filter_congr
        intro x _
        simp only [List.mem_append, List.mem_singleton, decide_not]
        by_cases hxa : x ∈ acc
        · simp [hxa]
        · by_cases hxk : x = k
          · simp [hxa, hxk]
          · simp [hxa, hxk]
      rw [h1, h2]
      simp [dedupKeys]

theorem dictKeys_update_foldl (l : PyDict) :
    ∀ acc : PyDict,
      dictKeys (l.foldl (fun acc p => aset acc p.1 p.2) acc) =
        (dictKeys l).foldl addKey (dictKeys acc) := by
  induction l with
  | nil => intro acc; simp [dictKeys]
  | cons p rest ih =>
    intro acc
    obtain ⟨k, v⟩ := p
    rw [show dictKeys ((k, v) :: rest) = k :: dictKeys rest from rfl]
    simp only [List.foldl_cons]
    rw [ih (aset acc k v), dictKeys_aset]

/-! Properties of the code-point comparison used by `sorted`. -/

theorem lexLe_total : ∀ a b : List Char, lexLe a b = true ∨ lexLe b a = true := by
  intro a
  induction a with
  | nil => intro b; left; simp [lexLe]
  | cons x xs ih =>
    intro b
    cases b with
    | nil => right; simp [lexLe]
    | cons y ys =>
      by_cases hxy : x = y
      · subst hxy
        simp only [lexLe, if_pos rfl]
        exact ih ys
      · rcases lt_trichotomy x y with h | h | h
        · left; simp [lexLe, hxy, h]
        · exact absurd h hxy
        · right
          simp only [lexLe]
          rw [if_neg (fun hh => hxy hh.symm)]
          simpa using h

theorem lexLe_trans :
    ∀ a b c : List Char, lexLe a b = true → lexLe b c = true → lexLe a c = true := by
  intro a
  induction a with
  | nil => intro b c _ _; simp [lexLe]
  | cons x xs ih =>
    intro b c hab hbc
    cases b with
    | nil => simp [lexLe] at hab
    | cons y ys =>
      cases c with
      | nil => simp [lexLe] at hbc
      | cons z zs =>
        simp only [lexLe] at hab hbc ⊢
        by_cases hxy : x = y
        · subst hxy
          rw [if_pos rfl] at hab
          by_cases hyz : x = z
          · subst hyz
            rw [if_pos rfl] at hbc ⊢
            exact ih ys zs hab hbc
          · rw [if_neg hyz] at hbc ⊢
            exact hbc
        · rw [if_neg hxy] at hab
          have hlt1 : x < y := by simpa using hab
          by_cases hyz : y = z
          · subst hyz
            rw [if_neg hxy]
            simpa using hlt1
          · rw [if_neg hyz] at hbc
            have hlt2 : y < z := by simpa using hbc
            have hlt : x < z := lt_trans hlt1 hlt2
            rw [if_neg (by intro hh; subst hh; exact absurd hlt (lt_irrefl x))]
            simpa using hlt

instance : IsTotal String (fun a b => strLe a b = true) :=
  ⟨fun a b => lexLe_total a.toList b.toList⟩

instance : IsTrans String (fun a b => strLe a b = true) :=
  ⟨fun a b c => lexLe_trans a.toList b.toList c.toList⟩

theorem pySorted_sorted (l : List String) :
    List.Sorted (fun a b => strLe a b = true) (pySorted l) :=
  List.sorted_insertionSort (fun a b => strLe a b = true) l

/-! The serializer introduces no whitespace of its own. -/

/-- No character of the list is a space. -/
def noSpaceChars (l : List Char) : Bool :=
  l.all fun c => c ≠ Char.ofNat 32

/-- No character of the string is a space. -/
def spaceFreeStr (s : String) : Bool :=
  noSpaceChars s.toList

mutual

/-- All strings occurring in the value (and the decimal rendering of its
integers) are space-free. -/
def spaceFreeV : FieldValue → Bool
  | .null => true
  | .bool _ => true
  | .int n => spaceFreeStr (toString n)
  | .str s => spaceFreeStr s
  | .list xs => spaceFreeL xs
  | .map m => spaceFreeE m

/-- All strings in a list of values are space-free. -/
def spaceFreeL : List FieldValue → Bool
  | [] => true
  | x :: xs => spaceFreeV x && spaceFreeL xs

/-- All keys and values of a dict are space-free. -/
def spaceFreeE : PyDict → Bool
  | [] => true
  | (k, v) :: rest => spaceFreeStr k && spaceFreeV v && spaceFreeE rest

end

theorem hexDigit_ne_space (n : Nat) (h : n < 16) : (hexDigit n ≠ Char.ofNat 32) := by
  interval_cases n <;> decide

theorem toHex4_noSpace (n : Nat) : noSpaceChars (toHex4 n) = true := by
  simp only [noSpaceChars, toHex4, List.all_cons, List.all_nil, Bool.and_true,
    Bool.and_eq_true, decide_eq_true_eq]
  exact ⟨hexDigit_ne_space _ (Nat.mod_lt _ (by norm_num)),
    hexDigit_ne_space _ (Nat.mod_lt _ (by norm_num)),
    hexDigit_ne_space _ (Nat.mod_lt _ (by norm_num)),
    hexDigit_ne_space _ (Nat.mod_lt _ (by norm_num))⟩



theorem spaceFreeStr_append (a b : String) :
    spaceFreeStr (a ++ b) = (spaceFreeStr a && spaceFreeStr b) := by
  simp [spaceFreeStr, noSpaceChars, String.toList, String.data_append, List.all_append]

theorem noSpaceChars_asString (l : List Char) :
    spaceFreeStr l.asString = noSpaceChars l := rfl


theorem jsonEscapeChar_noSpace (c : Char) (hc : c ≠ Char.ofNat 32) :
    noSpaceChars (jsonEscapeChar c) = true := by
  unfold jsonEscapeChar
  by_cases h1 : c = '"'
  · rw [if_pos h1]; decide
  · rw [if_neg h1]
    by_cases h2 : c = '\\'
    · rw [if_pos h2]; decide
    · rw [if_neg h2]
      by_cases h3 : c = Char.ofNat 10
      · rw [if_pos h3]; decide
      · rw [if_neg h3]
        by_cases h4 : c = Char.ofNat 13
        · rw [if_pos h4]; decide
        · rw [if_neg h4]
          by_cases h5 : c = Char.ofNat 9
          · rw [if_pos h5]; decide
          · rw [if_neg h5]
            by_cases h6 : c = Char.ofNat 8
            · rw [if_pos h6]; decide
            · rw [if_neg h6]
              by_cases h7 : c = Char.ofNat 12
              · rw [if_pos h7]; decide
              · rw [if_neg h7]
                by_cases h8 : c.toNat < 32
                · rw [if_pos h8]
                  simp only [noSpaceChars, List.all_cons, Bool.and_eq_true,
                    decide_eq_true_eq]
                  refine ⟨by decide, by decide, ?_⟩
                  simpa [noSpaceChars, List.all_eq_true] using toHex4_noSpace c.toNat
                · rw [if_neg h8]
                  by_cases h9 : c.toNat < 127
                  · rw [if_pos h9]
                    simp [noSpaceChars, hc]
                  · rw [if_neg h9]
                    by_cases h10 : c.toNat < 65536
                    · rw [if_pos h10]
                      simp only [noSpaceChars, List.all_cons, Bool.and_eq_true,
                        decide_eq_true_eq]
                      refine ⟨by decide, by decide, ?_⟩
                      simpa [noSpaceChars, List.all_eq_true] using toHex4_noSpace c.toNat
                    · rw [if_neg h10]
                      have ha := toHex4_noSpace (55296 + (c.toNat - 65536) / 1024)
                      have hb := toHex4_noSpace (56320 + (c.toNat - 65536) % 1024)
                      simp only [noSpaceChars] at ha hb ⊢
                      simp only [List.all_cons, List.all_append, Bool.and_eq_true,
                        decide_eq_true_eq]
                      exact ⟨⟨by decide, by decide, ha⟩, by decide, by decide, hb⟩

theorem noSpaceChars_flatMap :
    ∀ l : List Char, noSpaceChars l = true →
      noSpaceChars (l.flatMap jsonEscapeChar) = true := by
  intro l
  induction l with
  | nil => intro _; decide
  | cons c cs ih =>
    intro hl
    simp only [noSpaceChars, List.all_cons, Bool.and_eq_true, decide_eq_true_eq] at hl
    simp only [List.flatMap_cons, noSpaceChars, List.all_append, Bool.and_eq_true]
    refine ⟨jsonEscapeChar_noSpace c hl.1, ?_⟩
    simpa [noSpaceChars] using ih (by simpa [noSpaceChars] using hl.2)

theorem jsonQuote_noSpace (s : String) (hs : spaceFreeStr s = true) :
    spaceFreeStr (jsonQuote s) = true := by
  unfold jsonQuote
  rw [spaceFreeStr_append, spaceFreeStr_append, noSpaceChars_asString]
  rw [noSpaceChars_flatMap s.toList hs]
  decide

mutual

theorem jsonDumps_noSpace :
    ∀ v : FieldValue, spaceFreeV v = true → spaceFreeStr (jsonDumps v) = true
  | .null, _ => by decide
  | .bool b, _ => by cases b <;> decide
  | .int n, h => by
    simp only [jsonDumps]
    simpa [spaceFreeV] using h
  | .str s, h => by
    simp only [jsonDumps]
    exact jsonQuote_noSpace s (by simpa [spaceFreeV] using h)
  | .list xs, h => by
    simp only [jsonDumps]
    rw [spaceFreeStr_append, spaceFreeStr_append,
      jsonDumpsList_noSpace xs (by simpa [spaceFreeV] using h)]
    decide
  | .map m, h => by
    simp only [jsonDumps]
    rw [spaceFreeStr_append, spaceFreeStr_append,
      jsonDumpsEntries_noSpace m (by simpa [spaceFreeV] using h)]
    decide

theorem jsonDumpsList_noSpace :
    ∀ xs : List FieldValue, spaceFreeL xs = true → spaceFreeStr (jsonDumpsList xs) = true
  | [], _ => by decide
  | [x], h => by
    simp only [jsonDumpsList]
    simp only [spaceFreeL, Bool.and_eq_true] at h
    exact jsonDumps_noSpace x h.1
  | x :: y :: rest, h => by
    simp only [jsonDumpsList]
    simp only [spaceFreeL, Bool.and_eq_true] at h
    rw [spaceFreeStr_append, spaceFreeStr_append, jsonDumps_noSpace x h.1,
      jsonDumpsList_noSpace (y :: rest) (by simp [spaceFreeL, h.2.1, h.2.2])]
    decide

theorem jsonDumpsEntries_noSpace :
    ∀ l : PyDict, spaceFreeE l = true → spaceFreeStr (jsonDumpsEntries l) = true
  | [], _ => by decide
  | [(k, v)], h => by
    simp only [jsonDumpsEntries]
    simp only [spaceFreeE, Bool.and_eq_true] at h
    rw [spaceFreeStr_append, spaceFreeStr_append, jsonQuote_noSpace k h.1.1,
      jsonDumps_noSpace v h.1.2]
    decide
  | (k, v) :: (k2, v2) :: rest, h => by
    simp only [jsonDumpsEntries]
    simp only [spaceFreeE, Bool.and_eq_true] at h
    rw [spaceFreeStr_append, spaceFreeStr_append, spaceFreeStr_append,
      spaceFreeStr_append, jsonQuote_noSpace k h.1.1, jsonDumps_noSpace v h.1.2,
      jsonDumpsEntries_noSpace ((k2, v2) :: rest)
        (by simp [spaceFreeE, h.2.1.1, h.2.1.2, h.2.2])]
    decide

end

/-! Properties of first-occurrence key deduplication. -/

theorem dedupKeys_subset_aux :
    ∀ (n : Nat) (xs : List String), xs.length ≤ n → ∀ x ∈ dedupKeys xs, x ∈ xs := by
  intro n
  induction n with
  | zero =>
    intro xs hlen x hx
    cases xs with
    | nil => simp [dedupKeys] at hx
    | cons k rest => simp at hlen
  | succ n ih =>
    intro xs hlen x hx
    cases xs with
    | nil => simp [dedupKeys] at hx
    | cons k rest =>
      simp only [dedupKeys] at hx
      rcases List.mem_cons.mp hx with h | h
      · exact h ▸ List.mem_cons_self k rest
      · have hsub : (rest.filter fun y => y ≠ k).length ≤ n :=
          le_trans (List.length_filter_le _ _)
            (by simpa using Nat.le_of_succ_le_succ hlen)
        have hmem := ih _ hsub x h
        exact List.mem_cons_of_mem _ (List.mem_of_mem_filter hmem)

theorem dedupKeys_subset (xs : List String) : ∀ x ∈ dedupKeys xs, x ∈ xs :=
  dedupKeys_subset_aux xs.length xs le_rfl

theorem dedupKeys_nodup_aux :
    ∀ (n : Nat) (xs : List String), xs.length ≤ n → (dedupKeys xs).Nodup := by
  intro n
  induction n with
  | zero =>
    intro xs hlen
    cases xs with
    | nil => simp [dedupKeys]
    | cons k rest => simp at hlen
  | succ n ih =>
    intro xs hlen
    cases xs with
    | nil => simp [dedupKeys]
    | cons k rest =>
      simp only [dedupKeys]
      have hsub : (rest.filter fun y => y ≠ k).length ≤ n :=
        le_trans (List.length_filter_le _ _)
          (by simpa using Nat.le_of_succ_le_succ hlen)
      refine List.Nodup.cons ?_ (ih _ hsub)
      intro hk
      have := dedupKeys_subset _ k hk
      have := List.of_mem_filter this
      simp at this

theorem dedupKeys_nodup (xs : List String) : (dedupKeys xs).Nodup :=
  dedupKeys_nodup_aux xs.length xs le_rfl

theorem dedupKeys_of_nodup_aux :
    ∀ (n : Nat) (xs : List String), xs.length ≤ n → xs.Nodup → dedupKeys xs = xs := by
  intro n
  induction n with
  | zero =>
    intro xs hlen _
    cases xs with
    | nil => simp [dedupKeys]
    | cons k rest => simp at hlen
  | succ n ih =>
    intro xs hlen hnd
    cases xs with
    | nil => simp [dedupKeys]
    | cons k rest =>
      simp only [dedupKeys]
      have hk : k ∉ rest := (List.nodup_cons.mp hnd).1
      have hfil : rest.filter (fun y => y ≠ k) = rest := by
        apply List.filter_eq_self.mpr
        intro a ha
        simp only [ne_eq, decide_not, Bool.not_eq_eq_eq_not, Bool.not_true,
          decide_eq_false_iff_not]
        intro hak
        exact hk (hak ▸ ha)
      rw [hfil]
      rw [ih rest (by simpa using Nat.le_of_succ_le_succ hlen)
        (List.nodup_cons.mp hnd).2]

theorem dedupKeys_of_nodup (xs : List String) (h : xs.Nodup) : dedupKeys xs = xs :=
  dedupKeys_of_nodup_aux xs.length xs le_rfl h

/-- C9 (amended): `format_json` places `@timestamp`, `log.level`, `message`
first, in that order, each only when present; the remaining fields are
processed in lexicographic (code-point) order of their full dotted keys and
expanded to nested form; the top-level keys of the expansion appear after the
first keys in first-occurrence order of the head segments of the sorted
dotted keys (not necessarily in lexicographic order of the top-level keys
themselves); and the serializer inserts no whitespace of its own. -/
theorem format_json_spec (event : PyDict) :
    dictKeys (formatJsonObject event) =
      (firstKeys.filter fun k => (alookup event k).isSome) ++
        (dedupKeys
            ((pySorted (dictKeys (event.filter fun p => p.1 ∉ firstKeys))).map
              headSegment)).filter
          (fun k => k ∉ firstKeys.filter fun k => (alookup event k).isSome) ∧
    List.Sorted (fun a b => strLe a b = true)
      (pySorted (dictKeys (event.filter fun p => p.1 ∉ firstKeys))) ∧
    (spaceFreeE (formatJsonObject event) = true →
      spaceFreeStr (format_json event) = true) := by
  refine ⟨?_, pySorted_sorted _, ?_⟩
  · unfold formatJsonObject
    rw [dictKeys_update_foldl]
    have hord : dictKeys ((firstKeys.filter fun k => (alookup event k).isSome).map
        fun k => (k, (alookup event k).getD FieldValue.null)) =
        firstKeys.filter fun k => (alookup event k).isSome := by
      simp only [dictKeys, List.map_map]
      rw [show (Prod.fst ∘ fun k => (k, (alookup event k).getD FieldValue.null)) =
        fun k : String => k from rfl]
      exact List.map_id' _
    have hnorm : dictKeys (normalize_dict
        ((pySorted (dictKeys (event.filter fun p => p.1 ∉ firstKeys))).map
          fun k => (k,
            (alookup (event.filter fun p => p.1 ∉ firstKeys) k).getD FieldValue.null))) =
        dedupKeys ((pySorted (dictKeys (event.filter fun p => p.1 ∉ firstKeys))).map
          headSegment) := by
      unfold normalize_dict
      rw [normalizeEntries_keys, List.foldl_map]
      have h2 : ((pySorted (dictKeys (event.filter fun p => p.1 ∉ firstKeys))).map
          headSegment).foldl addKey [] =
          dedupKeys ((pySorted (dictKeys (event.filter fun p => p.1 ∉ firstKeys))).map
            headSegment) := by
        rw [foldl_addKey_append]
        simp
      rw [← h2, List.foldl_map]
      rfl
    rw [hord, hnorm, foldl_addKey_append]
    congr 1
    exact dedupKeys_of_nodup _ (List.Nodup.filter _ (dedupKeys_nodup _))
  · intro h
    unfold format_json
    exact jsonDumps_noSpace _ (by simpa [spaceFreeV] using h)

/-- C9 counterexample: for the flattened event `{"a-x": "1", "a.b": "2"}`
(no first keys present) the output object's top-level keys are
`["a-x", "a"]`, which is not in lexicographic order (`"a" < "a-x"`), because
the code sorts the dotted keys (`"a-x" < "a.b"` since `'-' < '.'`) and not
the expanded top-level keys; the claim that the remaining top-level keys
appear in lexicographic order is therefore false. -/
theorem format_json_top_keys_not_sorted :
    dictKeys (formatJsonObject [("a-x", FieldValue.str "1"), ("a.b", FieldValue.str "2")]) =
      ["a-x", "a"] ∧
    ¬ List.Sorted (fun a b => strLe a b = true)
      (dictKeys
        (formatJsonObject [("a-x", FieldValue.str "1"), ("a.b", FieldValue.str "2")])) ∧
    format_json [("a-x", FieldValue.str "1"), ("a.b", FieldValue.str "2")] =
      "\x7b\"a-x\":\"1\",\"a\":\x7b\"b\":\"2\"\x7d\x7d" := by
  have hd1 : de_dot "a-x" (FieldValue.str "1") = ("a-x", FieldValue.str "1") := by
    rw [de_dot_eq]; decide
  have hd2 : de_dot "a.b" (FieldValue.str "2") =
      ("a", FieldValue.map [("b", FieldValue.str "2")]) := by
    rw [de_dot_eq]; decide
  have hobj : formatJsonObject [("a-x", FieldValue.str "1"), ("a.b", FieldValue.str "2")] =
      [("a-x", FieldValue.str "1"), ("a", FieldValue.map [("b", FieldValue.str "2")])] := by
    simp only [formatJsonObject]
    simp [firstKeys, alookup, dictKeys, pySorted, List.insertionSort, List.orderedInsert,
      strLe, lexLe, normalize_dict, normalizeEntries, hd1, hd2, merge_values, aset]
  refine ⟨by rw [hobj]; decide, by rw [hobj]; decide, ?_⟩
  unfold format_json
  rw [hobj]
  decide

/-- C9 witness: `format_json_spec` applied to the event `{"b.c": "v"}`, with
the space-freeness hypothesis discharged on the computed output object. -/
theorem format_json_spec_witness :
    spaceFreeStr (format_json [("b.c", FieldValue.str "v")]) = true := by
  have hd1 : de_dot "b.c" (FieldValue.str "v") =
      ("b", FieldValue.map [("c", FieldValue.str "v")]) := by
    rw [de_dot_eq]; decide
  have hobj : formatJsonObject [("b.c", FieldValue.str "v")] =
      [("b", FieldValue.map [("c", FieldValue.str "v")])] := by
    simp only [formatJsonObject]
    simp [firstKeys, alookup, dictKeys, pySorted, List.insertionSort, List.orderedInsert,
      strLe, lexLe, normalize_dict, normalizeEntries, hd1, merge_values, aset]
  exact (format_json_spec [("b.c", FieldValue.str "v")]).2.2 (by rw [hobj]; decide)

/-- C2 counterexample: for `m = {"a.b": 1, "a.b.c": 2}` (already flat, so
`flatten_dict m = m`), normalizing and re-flattening loses the entry
`"a.b": 1`, because the dotted key `"a.b"` is a dot-prefix of `"a.b.c"` and
the structural merge lets the map win over the scalar; the two sides differ
at the key `"a.b"`, so the claimed round-trip equality fails. -/
theorem flatten_normalize_flatten_counterexample :
    alookup (flatten_dict [("a.b", FieldValue.int 1), ("a.b.c", FieldValue.int 2)]) "a.b" =
      some (FieldValue.int 1) ∧
    alookup
        (flatten_dict
          (normalize_dict
            (flatten_dict [("a.b", FieldValue.int 1), ("a.b.c", FieldValue.int 2)])))
        "a.b" = none := by
  have hflat : flatten_dict [("a.b", FieldValue.int 1), ("a.b.c", FieldValue.int 2)] =
      [("a.b", FieldValue.int 1), ("a.b.c", FieldValue.int 2)] := by
    simp [flatten_dict, flattenGo, aset]
  have hd1 : de_dot "a.b" (FieldValue.int 1) = ("a", FieldValue.map [("b", FieldValue.int 1)]) := by
    rw [de_dot_eq]; decide
  have hd2 : de_dot "a.b.c" (FieldValue.int 2) =
      ("a", FieldValue.map [("b", FieldValue.map [("c", FieldValue.int 2)])]) := by
    rw [de_dot_eq]; decide
  have hnorm : normalize_dict [("a.b", FieldValue.int 1), ("a.b.c", FieldValue.int 2)] =
      [("a", FieldValue.map [("b", FieldValue.map [("c", FieldValue.int 2)])])] := by
    simp [normalize_dict, normalizeEntries, hd1, hd2, merge_values, mergeLoop,
      union_keys, dedupKeys, aset, alookup]
  have hflat2 : flatten_dict
      [("a", FieldValue.map [("b", FieldValue.map [("c", FieldValue.int 2)])])] =
      [("a.b.c", FieldValue.int 2)] := by
    simp [flatten_dict, flattenGo, aset]
  rw [hflat, hnorm, hflat2]
  constructor
  · simp [alookup]
  · simp [alookup]

/-! String toolkit for dotted keys: joining segments, and the round-trip
between `splitDots` and joining. -/

/-- No character of the list is a dot. -/
def noDotChars (l : List Char) : Bool :=
  l.all fun c => c ≠ '.'

/-- The string contains no dot (it is a single segment). -/
def dotFree (s : String) : Bool :=
  noDotChars s.toList

/-- Join dot-separated segments back into a key, the inverse of
`splitDots`. -/
def joinDots : List String → String
  | [] => ""
  | [s] => s
  | s :: t :: rest => s ++ "." ++ joinDots (t :: rest)

/-- Character-list version of `joinDots`. -/
def joinChars : List (List Char) → List Char
  | [] => []
  | [a] => a
  | a :: b :: rest => a ++ '.' :: joinChars (b :: rest)

theorem strExt {a b : String} (h : a.toList = b.toList) : a = b := by
  cases a
  cases b
  simp only [String.toList] at h
  rw [h]

theorem toList_append (a b : String) : (a ++ b).toList = a.toList ++ b.toList := by
  simp [String.toList, String.data_append]

theorem toList_joinDots (p : List String) :
    (joinDots p).toList = joinChars (p.map String.toList) := by
  match p with
  | [] => simp [joinDots, joinChars, String.toList]
  | [s] => simp [joinDots, joinChars]
  | s :: t :: rest =>
    simp only [joinDots, joinChars, List.map_cons]
    rw [toList_append, toList_append, toList_joinDots (t :: rest)]
    simp [String.toList, List.map_cons, joinChars]

theorem splitAllDots_dotFree :
    ∀ (l : List Char) a, a ∈ splitAllDots l → noDotChars a = true := by
  intro l
  induction l with
  | nil =>
    intro a ha
    simp [splitAllDots] at ha
    simp [ha, noDotChars]
  | cons c cs ih =>
    intro a ha
    simp only [splitAllDots] at ha
    by_cases hc : c = '.'
    · rw [if_pos hc] at ha
      rcases List.mem_cons.mp ha with h | h
      · simp [h, noDotChars]
      · exact ih a h
    · rw [if_neg hc] at ha
      cases hsp : splitAllDots cs with
      | nil => exact absurd hsp (splitAllDots_ne_nil cs)
      | cons s rest =>
        rw [hsp] at ha
        rcases List.mem_cons.mp ha with h | h
        · have hs : noDotChars s = true := ih s (by rw [hsp]; exact List.mem_cons_self s rest)
          subst h
          simp only [noDotChars, List.all_cons, Bool.and_eq_true, decide_eq_true_eq]
          exact ⟨hc, by simpa [noDotChars] using hs⟩
        · exact ih a (by rw [hsp]; exact List.mem_cons_of_mem s h)

theorem splitAllDots_of_noDot (a : List Char) (h : noDotChars a = true) :
    splitAllDots a = [a] := by
  induction a with
  | nil => simp [splitAllDots]
  | cons c cs ih =>
    simp only [noDotChars, List.all_cons, Bool.and_eq_true, decide_eq_true_eq] at h
    simp only [splitAllDots, if_neg h.1]
    rw [ih (by simpa [noDotChars] using h.2)]

theorem splitAllDots_append_dot (a t : List Char) (h : noDotChars a = true) :
    splitAllDots (a ++ '.' :: t) = a :: splitAllDots t := by
  induction a with
  | nil => simp [splitAllDots]
  | cons c cs ih =>
    simp only [noDotChars, List.all_cons, Bool.and_eq_true, decide_eq_true_eq] at h
    have h2 : noDotChars cs = true := by simpa [noDotChars] using h.2
    have e1 : (c :: cs) ++ '.' :: t = c :: (cs ++ '.' :: t) := rfl
    rw [e1]
    simp only [splitAllDots, if_neg h.1]
    rw [ih h2]

theorem splitAllDots_joinChars :
    ∀ (p : List (List Char)), p ≠ [] → (∀ a ∈ p, noDotChars a = true) →
      splitAllDots (joinChars p) = p := by
  intro p
  match p with
  | [] => intro h; exact absurd rfl h
  | [a] =>
    intro _ hall
    simp only [joinChars]
    exact splitAllDots_of_noDot a (hall a (List.mem_singleton_self a))
  | a :: b :: rest =>
    intro _ hall
    simp only [joinChars]
    rw [splitAllDots_append_dot a _ (hall a (List.mem_cons_self _ _))]
    rw [splitAllDots_joinChars (b :: rest) (by simp)
      (fun x hx => hall x (List.mem_cons_of_mem a hx))]

theorem joinChars_splitAllDots :
    ∀ (l : List Char), joinChars (splitAllDots l) = l := by
  intro l
  induction l with
  | nil => simp [splitAllDots, joinChars]
  | cons c cs ih =>
    simp only [splitAllDots]
    by_cases hc : c = '.'
    · rw [if_pos hc]
      cases hsp : splitAllDots cs with
      | nil => exact absurd hsp (splitAllDots_ne_nil cs)
      | cons s rest =>
        simp only [joinChars]
        rw [← hsp, ih, hc]
        simp
    · rw [if_neg hc]
      cases hsp : splitAllDots cs with
      | nil => exact absurd hsp (splitAllDots_ne_nil cs)
      | cons s rest =>
        cases rest with
        | nil =>
          simp only [joinChars]
          have := ih
          rw [hsp] at this
          simp only [joinChars] at this
          simp [this]
        | cons r rr =>
          simp only [joinChars, List.cons_append]
          have := ih
          rw [hsp] at this
          simp only [joinChars] at this
          simp [this]

theorem asString_toList (s : String) : s.toList.asString = s := by
  apply strExt
  rfl

theorem toList_asString (l : List Char) : l.asString.toList = l := rfl

theorem joinDots_splitDots (q : String) : joinDots (splitDots q) = q := by
  apply strExt
  rw [toList_joinDots]
  unfold splitDots
  rw [List.map_map]
  have : (String.toList ∘ List.asString) = fun l : List Char => l := by
    funext l
    rfl
  rw [this, List.map_id']
  exact joinChars_splitAllDots q.toList

theorem splitDots_dotFree (q : String) : ∀ a ∈ splitDots q, dotFree a = true := by
  intro a ha
  unfold splitDots at ha
  rcases List.mem_map.mp ha with ⟨l, hl, rfl⟩
  unfold dotFree
  rw [toList_asString]
  exact splitAllDots_dotFree q.toList l hl

theorem splitDots_joinDots (sp : List String) (hne : sp ≠ [])
    (hdf : ∀ a ∈ sp, dotFree a = true) : splitDots (joinDots sp) = sp := by
  unfold splitDots
  rw [show (joinDots sp).toList = joinChars (sp.map String.toList) from toList_joinDots sp]
  rw [splitAllDots_joinChars (sp.map String.toList)
    (by simpa using hne)
    (by
      intro a ha
      rcases List.mem_map.mp ha with ⟨s, hs, rfl⟩
      exact hdf s hs)]
  rw [List.map_map]
  have : (List.asString ∘ String.toList) = fun s : String => s := by
    funext s
    rfl
  rw [this, List.map_id']

theorem splitDots_single (k : String) (h : dotFree k = true) : splitDots k = [k] := by
  unfold splitDots
  rw [splitAllDots_of_noDot k.toList h]
  rfl

theorem splitDots_append_dot (k r : String) (h : dotFree k = true) :
    splitDots (k ++ "." ++ r) = k :: splitDots r := by
  unfold splitDots
  have e1 : (k ++ "." ++ r).toList = k.toList ++ '.' :: r.toList := by
    rw [toList_append, toList_append, List.append_assoc]
    rfl
  rw [e1, splitAllDots_append_dot k.toList r.toList h]
  show (k.toList :: splitAllDots r.toList).map List.asString = _
  simp only [List.map_cons]
  rw [show k.toList.asString = k from asString_toList k]

theorem headSegment_append_dot (k r : String) (h : dotFree k = true) :
    headSegment (k ++ "." ++ r) = k := by
  unfold headSegment
  rw [splitDots_append_dot k r h]
  rfl

theorem headSegment_dotFree_self (k : String) (h : dotFree k = true) :
    headSegment k = k := by
  unfold headSegment
  rw [splitDots_single k h]
  rfl

theorem ne_append_dot (k r : String) : k ≠ k ++ "." ++ r := by
  intro hcontra
  have := congrArg (fun s : String => s.toList.length) hcontra
  simp only [toList_append] at this
  simp at this

theorem append_dot_left_inj (k a b : String) (h : k ++ "." ++ a = k ++ "." ++ b) :
    a = b := by
  apply strExt
  have := congrArg String.toList h
  simp only [toList_append, List.append_assoc] at this
  exact List.append_cancel_left (List.append_cancel_left this)

theorem joinDots_cons_ne (a : String) (t : List String) (h : t ≠ []) :
    joinDots (a :: t) = a ++ "." ++ joinDots t := by
  match t with
  | [] => exact absurd rfl h
  | b :: rest => rfl

theorem joinDots_append (p1 p2 : List String) (h1 : p1 ≠ []) (h2 : p2 ≠ []) :
    joinDots (p1 ++ p2) = joinDots p1 ++ "." ++ joinDots p2 := by
  match p1 with
  | [] => exact absurd rfl h1
  | [a] =>
    match p2 with
    | [] => exact absurd rfl h2
    | b :: rest =>
      show joinDots (a :: b :: rest) = _
      rfl
  | a :: b :: rest =>
    have ih := joinDots_append (b :: rest) p2 (by simp) h2
    show joinDots (a :: ((b :: rest) ++ p2)) = _
    rw [joinDots_cons_ne a _ (by simp), ih,
      joinDots_cons_ne a (b :: rest) (by simp)]
    apply strExt
    simp [toList_append, List.append_assoc]

/-! Trie analysis of `normalize_dict` output: clean tries, path lookup,
path freshness, and a reference insertion function. -/

/-- A scalar in the merge engine's sense: neither a dict nor a list. -/
def isScalar : FieldValue → Bool
  | .null => true
  | .bool _ => true
  | .int _ => true
  | .str _ => true
  | .list _ => false
  | .map _ => false

mutual

/-- Value of a clean trie: submaps are nonempty and recursively clean. -/
def cleanV : FieldValue → Bool
  | .map m => !m.isEmpty && cleanE m
  | .null => true
  | .bool _ => true
  | .int _ => true
  | .str _ => true
  | .list _ => true

/-- Clean trie: keys are dot-free single segments without duplicates, and
all values are clean. -/
def cleanE : PyDict → Bool
  | [] => true
  | (k, v) :: rest =>
    dotFree k && !(decide (k ∈ dictKeys rest)) && cleanV v && cleanE rest

end

mutual

/-- All values are list-free (no Python list anywhere). -/
def listFreeV : FieldValue → Bool
  | .map m => listFreeE m
  | .null => true
  | .bool _ => true
  | .int _ => true
  | .str _ => true
  | .list _ => false

/-- All values of the dict are list-free. -/
def listFreeE : PyDict → Bool
  | [] => true
  | (_, v) :: rest => listFreeV v && listFreeE rest

end

/-- Follow a nonempty segment path through nested maps and return the
non-map leaf at its end, if any. -/
def scalarAtPath : PyDict → List String → Option FieldValue
  | _, [] => none
  | t, [s] =>
    match alookup t s with
    | some v => if v.isMap then none else some v
    | none => none
  | t, s :: r :: rest =>
    match alookup t s with
    | some (FieldValue.map m) => scalarAtPath m (r :: rest)
    | some _ => none
    | none => none

/-- The path can be freshly inserted: walking it meets only maps and falls
off before its last segment resolves. -/
def freshPath : PyDict → List String → Bool
  | _, [] => true
  | t, [s] => (alookup t s).isNone
  | t, s :: r :: rest =>
    match alookup t s with
    | none => true
    | some (FieldValue.map m) => freshPath m (r :: rest)
    | some _ => false

/-- Reference trie insertion of a scalar at a nonempty fresh path. -/
def insertPath : PyDict → List String → FieldValue → PyDict
  | t, [], _ => t
  | t, [s], v => aset t s v
  | t, s :: r :: rest, v =>
    match alookup t s with
    | some (FieldValue.map m) => aset t s (FieldValue.map (insertPath m (r :: rest) v))
    | _ => aset t s (wrapPath (r :: rest) v)

/-- Structural reference version of `flatten_dict` (no in-place `aset`). -/
def flatList : PyDict → PyDict
  | [] => []
  | (k, FieldValue.map sub) :: rest =>
    ((flatList sub).map fun p => (k ++ "." ++ p.1, p.2)) ++ flatList rest
  | (k, FieldValue.null) :: rest => (k, FieldValue.null) :: flatList rest
  | (k, FieldValue.bool b) :: rest => (k, FieldValue.bool b) :: flatList rest
  | (k, FieldValue.int n) :: rest => (k, FieldValue.int n) :: flatList rest
  | (k, FieldValue.str s) :: rest => (k, FieldValue.str s) :: flatList rest
  | (k, FieldValue.list xs) :: rest => (k, FieldValue.list xs) :: flatList rest

/-! Lookup and freshness helpers. -/

theorem alookup_eq_none_iff (l : PyDict) (q : String) :
    alookup l q = none ↔ q ∉ dictKeys l := by
  induction l with
  | nil => simp [alookup, dictKeys]
  | cons p rest ih =>
    obtain ⟨k, v⟩ := p
    by_cases hk : k = q
    · subst hk
      simp [alookup, dictKeys]
    · simp only [alookup, if_neg hk, dictKeys, List.map_cons, List.mem_cons]
      rw [ih]
      unfold dictKeys
      constructor
      · intro h hmem
        rcases hmem with h1 | h1
        · exact hk h1.symm
        · exact h h1
      · intro h
        exact fun hmem => h (Or.inr hmem)

theorem alookup_append_left (l1 l2 : PyDict) (q : String) (v : FieldValue)
    (h : alookup l1 q = some v) : alookup (l1 ++ l2) q = some v := by
  induction l1 with
  | nil => simp [alookup] at h
  | cons p rest ih =>
    obtain ⟨k, w⟩ := p
    simp only [alookup, List.cons_append] at h ⊢
    by_cases hk : k = q
    · simpa [hk] using h
    · rw [if_neg hk] at h ⊢
      exact ih h

theorem alookup_append_right (l1 l2 : PyDict) (q : String)
    (h : alookup l1 q = none) : alookup (l1 ++ l2) q = alookup l2 q := by
  induction l1 with
  | nil => simp
  | cons p rest ih =>
    obtain ⟨k, w⟩ := p
    simp only [alookup, List.cons_append] at h ⊢
    by_cases hk : k = q
    · simp [hk] at h
    · rw [if_neg hk] at h ⊢
      exact ih h

theorem scalarAtPath_nil : ∀ p : List String, scalarAtPath [] p = none := by
  intro p
  match p with
  | [] => rfl
  | [s] => simp [scalarAtPath, alookup]
  | s :: r :: rest => simp [scalarAtPath, alookup]

theorem scalarAtPath_cons_ne (k s1 : String) (v : FieldValue) (t : PyDict)
    (sr : List String) (h : s1 ≠ k) :
    scalarAtPath ((k, v) :: t) (s1 :: sr) = scalarAtPath t (s1 :: sr) := by
  match sr with
  | [] =>
    simp only [scalarAtPath, alookup]
    rw [if_neg (fun hh => h hh.symm)]
  | r :: rest =>
    simp only [scalarAtPath, alookup]
    rw [if_neg (fun hh => h hh.symm)]

/-- In a clean trie, every flattened key's head segment is a key of the
top-level dict. -/
theorem flatList_head_mem :
    ∀ (t : PyDict), cleanE t = true → ∀ p ∈ flatList t, headSegment p.1 ∈ dictKeys t
  | [], _, p, hp => by simp [flatList] at hp
  | (k, FieldValue.map sub) :: rest, hc, p, hp => by
    simp only [cleanE, Bool.and_eq_true] at hc
    simp only [flatList, List.mem_append] at hp
    rcases hp with h | h
    · rcases List.mem_map.mp h with ⟨p0, _, rfl⟩
      rw [headSegment_append_dot k p0.1 hc.1.1.1]
      exact List.mem_cons_self _ _
    · exact List.mem_cons_of_mem _ (flatList_head_mem rest hc.2 p h)
  | (k, FieldValue.null) :: rest, hc, p, hp => by
    simp only [cleanE, Bool.and_eq_true] at hc
    simp only [flatList, List.mem_cons] at hp
    rcases hp with h | h
    · rw [h]
      rw [show ((k, FieldValue.null) : String × FieldValue).1 = k from rfl,
        headSegment_dotFree_self k hc.1.1.1]
      exact List.mem_cons_self _ _
    · exact List.mem_cons_of_mem _ (flatList_head_mem rest hc.2 p h)
  | (k, FieldValue.bool b) :: rest, hc, p, hp => by
    simp only [cleanE, Bool.and_eq_true] at hc
    simp only [flatList, List.mem_cons] at hp
    rcases hp with h | h
    · rw [h]
      rw [show ((k, FieldValue.bool b) : String × FieldValue).1 = k from rfl,
        headSegment_dotFree_self k hc.1.1.1]
      exact List.mem_cons_self _ _
    · exact List.mem_cons_of_mem _ (flatList_head_mem rest hc.2 p h)
  | (k, FieldValue.int n) :: rest, hc, p, hp => by
    simp only [cleanE, Bool.and_eq_true] at hc
    simp only [flatList, List.mem_cons] at hp
    rcases hp with h | h
    · rw [h]
      rw [show ((k, FieldValue.int n) : String × FieldValue).1 = k from rfl,
        headSegment_dotFree_self k hc.1.1.1]
      exact List.mem_cons_self _ _
    · exact List.mem_cons_of_mem _ (flatList_head_mem rest hc.2 p h)
  | (k, FieldValue.str s) :: rest, hc, p, hp => by
    simp only [cleanE, Bool.and_eq_true] at hc
    simp only [flatList, List.mem_cons] at hp
    rcases hp with h | h
    · rw [h]
      rw [show ((k, FieldValue.str s) : String × FieldValue).1 = k from rfl,
        headSegment_dotFree_self k hc.1.1.1]
      exact List.mem_cons_self _ _
    · exact List.mem_cons_of_mem _ (flatList_head_mem rest hc.2 p h)
  | (k, FieldValue.list xs) :: rest, hc, p, hp => by
    simp only [cleanE, Bool.and_eq_true] at hc
    simp only [flatList, List.mem_cons] at hp
    rcases hp with h | h
    · rw [h]
      rw [show ((k, FieldValue.list xs) : String × FieldValue).1 = k from rfl,
        headSegment_dotFree_self k hc.1.1.1]
      exact List.mem_cons_self _ _
    · exact List.mem_cons_of_mem _ (flatList_head_mem rest hc.2 p h)

theorem alookup_flatList_head (t : PyDict) (q : String) (hc : cleanE t = true)
    (h : headSegment q ∉ dictKeys t) : alookup (flatList t) q = none := by
  rw [alookup_eq_none_iff]
  intro hmem
  rcases List.mem_map.mp hmem with ⟨p, hp, rfl⟩
  exact h (flatList_head_mem t hc p hp)

theorem alookup_prefixed_hit (l : PyDict) (k r : String) :
    alookup (l.map fun p => (k ++ "." ++ p.1, p.2)) (k ++ "." ++ r) = alookup l r := by
  induction l with
  | nil => simp [alookup]
  | cons p rest ih =>
    obtain ⟨k0, v0⟩ := p
    simp only [List.map_cons, alookup]
    by_cases h : k0 = r
    · subst h
      simp
    · rw [if_neg (fun hh => h (append_dot_left_inj k k0 r hh)), if_neg h]
      exact ih

theorem alookup_prefixed_miss (l : PyDict) (k q : String) (hdf : dotFree k = true)
    (h : headSegment q ≠ k) :
    alookup (l.map fun p => (k ++ "." ++ p.1, p.2)) q = none := by
  induction l with
  | nil => simp [alookup]
  | cons p rest ih =>
    obtain ⟨k0, v0⟩ := p
    simp only [List.map_cons, alookup]
    rw [if_neg, ih]
    intro hh
    rw [← hh] at h
    exact h (headSegment_append_dot k k0 hdf)

theorem alookup_prefixed_self (l : PyDict) (k : String) :
    alookup (l.map fun p => (k ++ "." ++ p.1, p.2)) k = none := by
  induction l with
  | nil => simp [alookup]
  | cons p rest ih =>
    obtain ⟨k0, v0⟩ := p
    simp only [List.map_cons, alookup]
    rw [if_neg (fun hh => ne_append_dot k k0 hh.symm), ih]

/-- Clean tries flatten to duplicate-free key lists (auxiliary, bounded by
size for the nested induction). -/
theorem flatList_keys_nodup_aux :
    ∀ (n : Nat) (t : PyDict), sizeOf t ≤ n → cleanE t = true →
      (dictKeys (flatList t)).Nodup := by
  intro n
  induction n with
  | zero =>
    intro t hsz _
    cases t with
    | nil => simp [flatList, dictKeys]
    | cons p rest => simp at hsz
  | succ n ih =>
    intro t hsz
    match t with
    | [] => intro _; simp [flatList, dictKeys]
    | (k, v) :: rest =>
      intro hc
      simp only [cleanE, Bool.and_eq_true] at hc
      obtain ⟨⟨⟨hdf, hnin⟩, hcv⟩, hcr⟩ := hc
      have hnin' : k ∉ dictKeys rest := by simpa using hnin
      have hszr : sizeOf rest ≤ n := by
        simp only [List.cons.sizeOf_spec] at hsz
        omega
      have hrest_nodup : (dictKeys (flatList rest)).Nodup := ih rest hszr hcr
      have hrest_head : ∀ q ∈ dictKeys (flatList rest), headSegment q ∈ dictKeys rest := by
        intro q hq
        rcases List.mem_map.mp hq with ⟨p, hp, rfl⟩
        exact flatList_head_mem rest hcr p hp
      cases v with
      | map sub =>
        simp only [cleanV, Bool.and_eq_true] at hcv
        have hszs : sizeOf sub ≤ n := by
          simp only [List.cons.sizeOf_spec, Prod.mk.sizeOf_spec,
            FieldValue.map.sizeOf_spec] at hsz
          have hk : 0 ≤ sizeOf k := by positivity
          omega
        have hsub_nodup : (dictKeys (flatList sub)).Nodup := ih sub hszs hcv.2
        have hfl : flatList ((k, FieldValue.map sub) :: rest) =
            ((flatList sub).map fun p => (k ++ "." ++ p.1, p.2)) ++ flatList rest := by
          simp only [flatList]
        rw [hfl]
        unfold dictKeys
        rw [List.map_append, List.nodup_append]
        refine ⟨?_, ?_, ?_⟩
        · rw [List.map_map]
          have e1 : (Prod.fst ∘ fun p : String × FieldValue => (k ++ "." ++ p.1, p.2)) =
              ((fun s => k ++ "." ++ s) ∘ Prod.fst) := rfl
          rw [e1, ← List.map_map]
          apply List.Nodup.map
          · intro a b hab
            exact append_dot_left_inj k a b hab
          · exact hsub_nodup
        · exact hrest_nodup
        · intro a ha hb
          rw [List.map_map] at ha
          rcases List.mem_map.mp ha with ⟨p0, _, hpa⟩
          have hpa2 : a = k ++ "." ++ p0.1 := by rw [← hpa]; rfl
          subst hpa2
          have hhead := hrest_head _ hb
          rw [headSegment_append_dot k p0.1 hdf] at hhead
          exact hnin' hhead
      | null =>
        have hfl : flatList ((k, FieldValue.null) :: rest) = (k, FieldValue.null) :: flatList rest := by
          simp only [flatList]
        rw [hfl]
        show ((k :: dictKeys (flatList rest))).Nodup
        refine List.Nodup.cons ?_ hrest_nodup
        intro hk
        have := hrest_head k hk
        rw [headSegment_dotFree_self k hdf] at this
        exact hnin' this
      | bool b =>
        have hfl : flatList ((k, FieldValue.bool b) :: rest) = (k, FieldValue.bool b) :: flatList rest := by
          simp only [flatList]
        rw [hfl]
        show ((k :: dictKeys (flatList rest))).Nodup
        refine List.Nodup.cons ?_ hrest_nodup
        intro hk
        have := hrest_head k hk
        rw [headSegment_dotFree_self k hdf] at this
        exact hnin' this
      | int n2 =>
        have hfl : flatList ((k, FieldValue.int n2) :: rest) = (k, FieldValue.int n2) :: flatList rest := by
          simp only [flatList]
        rw [hfl]
        show ((k :: dictKeys (flatList rest))).Nodup
        refine List.Nodup.cons ?_ hrest_nodup
        intro hk
        have := hrest_head k hk
        rw [headSegment_dotFree_self k hdf] at this
        exact hnin' this
      | str s =>
        have hfl : flatList ((k, FieldValue.str s) :: rest) = (k, FieldValue.str s) :: flatList rest := by
          simp only [flatList]
        rw [hfl]
        show ((k :: dictKeys (flatList rest))).Nodup
        refine List.Nodup.cons ?_ hrest_nodup
        intro hk
        have := hrest_head k hk
        rw [headSegment_dotFree_self k hdf] at this
        exact hnin' this
      | list xs =>
        have hfl : flatList ((k, FieldValue.list xs) :: rest) = (k, FieldValue.list xs) :: flatList rest := by
          simp only [flatList]
        rw [hfl]
        show ((k :: dictKeys (flatList rest))).Nodup
        refine List.Nodup.cons ?_ hrest_nodup
        intro hk
        have := hrest_head k hk
        rw [headSegment_dotFree_self k hdf] at this
        exact hnin' this

theorem flatList_keys_nodup (t : PyDict) (hc : cleanE t = true) :
    (dictKeys (flatList t)).Nodup :=
  flatList_keys_nodup_aux (sizeOf t) t le_rfl hc

theorem dictKeys_append (a b : PyDict) :
    dictKeys (a ++ b) = dictKeys a ++ dictKeys b := by
  simp [dictKeys]

theorem foldl_aset_fresh :
    ∀ (l : PyDict) (top : PyDict), (∀ p ∈ l, p.1 ∉ dictKeys top) → (dictKeys l).Nodup →
      l.foldl (fun t p => aset t p.1 p.2) top = top ++ l := by
  intro l
  induction l with
  | nil => intro top _ _; simp
  | cons p rest ih =>
    intro top hfresh hnd
    obtain ⟨k, v⟩ := p
    have hnd' := hnd
    rw [show dictKeys ((k, v) :: rest) = k :: dictKeys rest from rfl] at hnd'
    obtain ⟨hk_not, hnd_rest⟩ := List.nodup_cons.mp hnd'
    simp only [List.foldl_cons]
    rw [aset_fresh_append top k v (hfresh (k, v) (List.mem_cons_self _ _))]
    rw [ih (top ++ [(k, v)]) ?_ ?_]
    · simp
    · intro q hq
      rw [dictKeys_append]
      simp only [List.mem_append]
      push_neg
      refine ⟨fun hh => hfresh q (List.mem_cons_of_mem _ hq) hh, ?_⟩
      have hne : q.1 ≠ k := by
        intro hqk
        exact hk_not (hqk ▸ List.mem_map_of_mem Prod.fst hq)
      simpa [dictKeys] using hne
    · exact hnd_rest

theorem foldl_aset_prefixed :
    ∀ (l : PyDict) (top : PyDict) (k : String),
      (∀ p ∈ l.map (fun p => (k ++ "." ++ p.1, p.2)), p.1 ∉ dictKeys top) →
      (dictKeys (l.map fun p => (k ++ "." ++ p.1, p.2))).Nodup →
      l.foldl (fun t p => aset t (k ++ "." ++ p.1) p.2) top =
        top ++ l.map (fun p => (k ++ "." ++ p.1, p.2)) := by
  intro l
  induction l with
  | nil => intro top k _ _; simp
  | cons p rest ih =>
    intro top k hfresh hnd
    obtain ⟨k0, v0⟩ := p
    have hnd' := hnd
    rw [show dictKeys (((k0, v0) :: rest).map fun p => (k ++ "." ++ p.1, p.2)) =
      (k ++ "." ++ k0) :: dictKeys (rest.map fun p => (k ++ "." ++ p.1, p.2)) from rfl] at hnd'
    obtain ⟨hk_not, hnd_rest⟩ := List.nodup_cons.mp hnd'
    simp only [List.foldl_cons, List.map_cons]
    rw [aset_fresh_append top (k ++ "." ++ k0) v0
      (hfresh (k ++ "." ++ k0, v0) (by simp))]
    rw [ih (top ++ [(k ++ "." ++ k0, v0)]) k ?_ ?_]
    · simp
    · intro q hq
      rw [dictKeys_append]
      simp only [List.mem_append]
      push_neg
      refine ⟨fun hh => hfresh q (by simp only [List.map_cons]; exact List.mem_cons_of_mem _ hq) hh, ?_⟩
      have hne : q.1 ≠ k ++ "." ++ k0 := by
        intro hqk
        exact hk_not (hqk ▸ List.mem_map_of_mem Prod.fst hq)
      simpa [dictKeys] using hne
    · exact hnd_rest

theorem flattenGo_eq_aux :
    ∀ (n : Nat) (t : PyDict), sizeOf t ≤ n → ∀ top : PyDict,
      (dictKeys (top ++ flatList t)).Nodup → flattenGo top t = top ++ flatList t := by
  intro n
  induction n with
  | zero =>
    intro t hsz top h
    cases t with
    | nil => simp [flattenGo, flatList]
    | cons p rest => simp at hsz
  | succ n ih =>
    intro t hsz top h
    match t with
    | [] => simp [flattenGo, flatList]
    | (k, v) :: rest =>
      have hszr : sizeOf rest ≤ n := by
        simp only [List.cons.sizeOf_spec] at hsz
        omega
      cases v
      case map sub =>
        have hszs : sizeOf sub ≤ n := by
          simp only [List.cons.sizeOf_spec, Prod.mk.sizeOf_spec,
            FieldValue.map.sizeOf_spec] at hsz
          have hk : 0 ≤ sizeOf k := by positivity
          omega
        have hfl : flatList ((k, FieldValue.map sub) :: rest) =
            ((flatList sub).map fun p => (k ++ "." ++ p.1, p.2)) ++ flatList rest := by
          simp only [flatList]
        rw [hfl] at h ⊢
        have hpre_nodup :
            (dictKeys ((flatList sub).map fun p => (k ++ "." ++ p.1, p.2))).Nodup := by
          rw [dictKeys_append, dictKeys_append, List.nodup_append] at h
          exact (List.nodup_append.mp h.2.1).1
        have hsub_nodup : (dictKeys (flatList sub)).Nodup := by
          have e : dictKeys ((flatList sub).map fun p => (k ++ "." ++ p.1, p.2)) =
              (dictKeys (flatList sub)).map fun s => k ++ "." ++ s := by
            simp only [dictKeys, List.map_map]
            rfl
          rw [e] at hpre_nodup
          exact List.Nodup.of_map _ hpre_nodup
        have e1 : flattenGo [] sub = flatList sub := by
          have := ih sub hszs [] (by simpa [dictKeys] using hsub_nodup)
          simpa using this
        have hfreshpre : ∀ p ∈ (flatList sub).map (fun p => (k ++ "." ++ p.1, p.2)),
            p.1 ∉ dictKeys top := by
          intro p hp hmem
          rw [dictKeys_append] at h
          refine List.disjoint_of_nodup_append h hmem ?_
          rw [dictKeys_append]
          exact List.mem_append_left _ (List.mem_map_of_mem Prod.fst hp)
        have e2 : (flatList sub).foldl (fun t p => aset t (k ++ "." ++ p.1) p.2) top =
            top ++ (flatList sub).map (fun p => (k ++ "." ++ p.1, p.2)) :=
          foldl_aset_prefixed (flatList sub) top k hfreshpre hpre_nodup
        simp only [flattenGo]
        rw [e1, e2]
        rw [ih rest hszr]
        · rw [List.append_assoc]
        · rw [List.append_assoc]
          exact h
      all_goals
        simp only [flatList] at h
        simp only [flattenGo, flatList]
        have hk_top : k ∉ dictKeys top := by
          rw [dictKeys_append] at h
          intro hk
          exact List.disjoint_of_nodup_append h hk (by simp [dictKeys])
        rw [aset_fresh_append _ _ _ hk_top]
        rw [ih rest hszr]
        · simp
        · rw [List.append_assoc]
          exact h

theorem flattenGo_eq (t : PyDict) (top : PyDict)
    (h : (dictKeys (top ++ flatList t)).Nodup) : flattenGo top t = top ++ flatList t :=
  flattenGo_eq_aux (sizeOf t) t le_rfl top h

/-- On a clean trie, `flatten_dict` agrees with the structural reference
flattening. -/
theorem flatten_dict_eq_flatList (t : PyDict) (hc : cleanE t = true) :
    flatten_dict t = flatList t := by
  unfold flatten_dict
  have := flattenGo_eq t [] (by simpa [dictKeys] using flatList_keys_nodup t hc)
  simpa using this

theorem scalarAtPath_cons_self_single (k : String) (v : FieldValue) (t : PyDict)
    (hv : v.isMap = false) : scalarAtPath ((k, v) :: t) [k] = some v := by
  simp [scalarAtPath, alookup, hv]

theorem scalarAtPath_cons_self_deep (k : String) (v : FieldValue) (t : PyDict)
    (r : String) (rr : List String) (hv : v.isMap = false) :
    scalarAtPath ((k, v) :: t) (k :: r :: rr) = none := by
  cases v <;> simp [scalarAtPath, alookup, FieldValue.isMap] at hv ⊢

theorem scalarAtPath_cons_map_single (k : String) (sub : PyDict) (t : PyDict) :
    scalarAtPath ((k, FieldValue.map sub) :: t) [k] = none := by
  simp [scalarAtPath, alookup, FieldValue.isMap]

theorem scalarAtPath_cons_map_deep (k : String) (sub : PyDict) (t : PyDict)
    (r : String) (rr : List String) :
    scalarAtPath ((k, FieldValue.map sub) :: t) (k :: r :: rr) =
      scalarAtPath sub (r :: rr) := by
  simp [scalarAtPath, alookup]

theorem splitDots_exists_cons (q : String) :
    ∃ s1 sr, splitDots q = s1 :: sr := by
  cases h : splitDots q with
  | nil => exact absurd h (splitDots_ne_nil q)
  | cons a b => exact ⟨a, b, rfl⟩

theorem flatList_lookup_scalar_step (k : String) (v : FieldValue) (rest : PyDict)
    (hdf : dotFree k = true) (hnin : k ∉ dictKeys rest) (hcr : cleanE rest = true)
    (hv : v.isMap = false)
    (IH : ∀ q, alookup (flatList rest) q = scalarAtPath rest (splitDots q)) :
    ∀ q, alookup ((k, v) :: flatList rest) q = scalarAtPath ((k, v) :: rest) (splitDots q) := by
  intro q
  obtain ⟨s1, sr, hsq⟩ := splitDots_exists_cons q
  have hhead : headSegment q = s1 := by
    unfold headSegment
    rw [hsq]
    rfl
  by_cases hqk : q = k
  · subst hqk
    rw [splitDots_single q hdf, scalarAtPath_cons_self_single q v rest hv]
    simp [alookup]
  · have hkq : ¬ (k = q) := fun h => hqk h.symm
    have hL : alookup ((k, v) :: flatList rest) q = alookup (flatList rest) q := by
      simp [alookup, hkq]
    rw [hL]
    by_cases hs1 : s1 = k
    · subst hs1
      have hsrne : sr ≠ [] := by
        intro h0
        subst h0
        have hjq := joinDots_splitDots q
        rw [hsq] at hjq
        simp only [joinDots] at hjq
        exact hqk hjq.symm
      obtain ⟨r, rr, rfl⟩ : ∃ r rr, sr = r :: rr := by
        cases sr with
        | nil => exact absurd rfl hsrne
        | cons a b => exact ⟨a, b, rfl⟩
      rw [hsq, scalarAtPath_cons_self_deep s1 v rest r rr hv]
      apply alookup_flatList_head rest q hcr
      rw [hhead]
      exact hnin
    · rw [hsq, scalarAtPath_cons_ne k s1 v rest sr hs1, ← hsq]
      exact IH q

theorem flatList_lookup_aux :
    ∀ (n : Nat) (t : PyDict), sizeOf t ≤ n → cleanE t = true →
      ∀ q : String, alookup (flatList t) q = scalarAtPath t (splitDots q) := by
  intro n
  induction n with
  | zero =>
    intro t hsz _ q
    cases t with
    | nil =>
      rw [scalarAtPath_nil]
      simp [flatList, alookup]
    | cons p rest => simp at hsz
  | succ n ih =>
    intro t hsz hc q
    match t with
    | [] =>
      rw [scalarAtPath_nil]
      simp [flatList, alookup]
    | (k, v) :: rest =>
      simp only [cleanE, Bool.and_eq_true] at hc
      obtain ⟨⟨⟨hdf, hnin⟩, hcv⟩, hcr⟩ := hc
      have hnin' : k ∉ dictKeys rest := by simpa using hnin
      have hszr : sizeOf rest ≤ n := by
        simp only [List.cons.sizeOf_spec] at hsz
        omega
      cases v
      case map sub =>
        simp only [cleanV, Bool.and_eq_true] at hcv
        have hszs : sizeOf sub ≤ n := by
          simp only [List.cons.sizeOf_spec, Prod.mk.sizeOf_spec,
            FieldValue.map.sizeOf_spec] at hsz
          have hk0 : 0 ≤ sizeOf k := by positivity
          omega
        have hfl : flatList ((k, FieldValue.map sub) :: rest) =
            ((flatList sub).map fun p => (k ++ "." ++ p.1, p.2)) ++ flatList rest := by
          simp only [flatList]
        rw [hfl]
        obtain ⟨s1, sr, hsq⟩ := splitDots_exists_cons q
        have hhead : headSegment q = s1 := by
          unfold headSegment
          rw [hsq]
          rfl
        by_cases hs1 : s1 = k
        · subst hs1
          cases sr with
          | nil =>
            have hq : q = s1 := by
              have hjq := joinDots_splitDots q
              rw [hsq] at hjq
              simpa only [joinDots] using hjq.symm
            rw [hsq, scalarAtPath_cons_map_single s1 sub rest]
            rw [alookup_append_right _ _ _ (by rw [hq]; exact alookup_prefixed_self _ s1)]
            apply alookup_flatList_head rest q hcr
            rw [hhead]
            exact hnin'
          | cons r rr =>
            have hdfsub : ∀ a ∈ r :: rr, dotFree a = true := by
              intro a ha
              exact splitDots_dotFree q a (by rw [hsq]; exact List.mem_cons_of_mem _ ha)
            have hq : q = s1 ++ "." ++ joinDots (r :: rr) := by
              have hjq := joinDots_splitDots q
              rw [hsq, joinDots_cons_ne s1 (r :: rr) (by simp)] at hjq
              exact hjq.symm
            have hsplit_sub : splitDots (joinDots (r :: rr)) = r :: rr :=
              splitDots_joinDots _ (by simp) hdfsub
            have hpre : alookup ((flatList sub).map fun p => (s1 ++ "." ++ p.1, p.2)) q =
                scalarAtPath sub (r :: rr) := by
              rw [hq, alookup_prefixed_hit (flatList sub) s1 (joinDots (r :: rr))]
              rw [ih sub hszs hcv.2 (joinDots (r :: rr)), hsplit_sub]
            rw [hsq, scalarAtPath_cons_map_deep s1 sub rest r rr]
            cases hx : scalarAtPath sub (r :: rr) with
            | some w =>
              exact alookup_append_left _ _ _ _ (by rw [hpre, hx])
            | none =>
              rw [alookup_append_right _ _ _ (by rw [hpre, hx])]
              apply alookup_flatList_head rest q hcr
              rw [hhead]
              exact hnin'
        · rw [alookup_append_right _ _ _
            (alookup_prefixed_miss (flatList sub) k q hdf (by rw [hhead]; exact hs1))]
          rw [hsq, scalarAtPath_cons_ne k s1 (FieldValue.map sub) rest sr hs1, ← hsq]
          exact ih rest hszr hcr q
      case null =>
        have hfl : flatList ((k, FieldValue.null) :: rest) =
            (k, FieldValue.null) :: flatList rest := by simp only [flatList]
        rw [hfl]
        exact flatList_lookup_scalar_step k FieldValue.null rest hdf hnin' hcr rfl
          (fun q2 => ih rest hszr hcr q2) q
      case bool b =>
        have hfl : flatList ((k, FieldValue.bool b) :: rest) =
            (k, FieldValue.bool b) :: flatList rest := by simp only [flatList]
        rw [hfl]
        exact flatList_lookup_scalar_step k (FieldValue.bool b) rest hdf hnin' hcr rfl
          (fun q2 => ih rest hszr hcr q2) q
      case int n2 =>
        have hfl : flatList ((k, FieldValue.int n2) :: rest) =
            (k, FieldValue.int n2) :: flatList rest := by simp only [flatList]
        rw [hfl]
        exact flatList_lookup_scalar_step k (FieldValue.int n2) rest hdf hnin' hcr rfl
          (fun q2 => ih rest hszr hcr q2) q
      case str s =>
        have hfl : flatList ((k, FieldValue.str s) :: rest) =
            (k, FieldValue.str s) :: flatList rest := by simp only [flatList]
        rw [hfl]
        exact flatList_lookup_scalar_step k (FieldValue.str s) rest hdf hnin' hcr rfl
          (fun q2 => ih rest hszr hcr q2) q
      case list xs =>
        have hfl : flatList ((k, FieldValue.list xs) :: rest) =
            (k, FieldValue.list xs) :: flatList rest := by simp only [flatList]
        rw [hfl]
        exact flatList_lookup_scalar_step k (FieldValue.list xs) rest hdf hnin' hcr rfl
          (fun q2 => ih rest hszr hcr q2) q

theorem flatList_lookup (t : PyDict) (hc : cleanE t = true) (q : String) :
    alookup (flatList t) q = scalarAtPath t (splitDots q) :=
  flatList_lookup_aux (sizeOf t) t le_rfl hc q

/-! Cleanliness and freshness toolkit for trie insertion. -/

theorem isScalar_cleanV (v : FieldValue) (h : isScalar v = true) : cleanV v = true := by
  cases v <;> simp [isScalar, cleanV] at h ⊢

theorem isScalar_not_map (v : FieldValue) (h : isScalar v = true) : v.isMap = false := by
  cases v <;> simp [isScalar, FieldValue.isMap] at h ⊢

theorem wrapPath_ne_empty (t : List String) (v : FieldValue) (h : isScalar v = true) :
    wrapPath t v ≠ FieldValue.map [] := by
  cases t with
  | nil =>
    cases v <;> simp [isScalar, wrapPath] at h ⊢
  | cons a r => simp [wrapPath]

theorem merge_some_none (w : FieldValue) : merge_values (some w) none = w := by
  cases w <;> simp [merge_values]

theorem merge_none_some (w : FieldValue) : merge_values none (some w) = w := by
  cases w <;> simp [merge_values]

theorem merge_map_map (f i : PyDict) :
    merge_values (some (FieldValue.map f)) (some (FieldValue.map i)) =
      FieldValue.map (mergeLoop f i (union_keys i f) []) := by
  simp [merge_values]

theorem aset_ne_nil (l : PyDict) (k : String) (v : FieldValue) : aset l k v ≠ [] := by
  cases l with
  | nil => simp [aset]
  | cons p rest =>
    obtain ⟨k0, v0⟩ := p
    by_cases h : k0 = k <;> simp [aset, h]

theorem insertPath_cons_ne_nil (t : PyDict) (s : String) (rest : List String)
    (v : FieldValue) : insertPath t (s :: rest) v ≠ [] := by
  cases rest with
  | nil => exact aset_ne_nil t s v
  | cons r pr =>
    simp only [insertPath]
    cases alookup t s with
    | none => exact aset_ne_nil t s _
    | some w =>
      cases w <;> exact aset_ne_nil t s _

theorem cleanE_values_ne_empty (m : PyDict) (hc : cleanE m = true) :
    ∀ p ∈ m, p.2 ≠ FieldValue.map [] := by
  induction m with
  | nil => simp
  | cons p rest ih =>
    obtain ⟨k, v⟩ := p
    simp only [cleanE, Bool.and_eq_true] at hc
    intro q hq
    rcases List.mem_cons.mp hq with hq1 | hq1
    · subst hq1
      intro h0
      simp only at h0
      rw [h0] at hc
      simp [cleanV, List.isEmpty] at hc
    · exact ih hc.2 q hq1

theorem alookup_clean (m : PyDict) (s : String) (w : FieldValue)
    (hc : cleanE m = true) (hl : alookup m s = some w) : cleanV w = true := by
  induction m with
  | nil => simp [alookup] at hl
  | cons p rest ih =>
    obtain ⟨k, v⟩ := p
    simp only [cleanE, Bool.and_eq_true] at hc
    simp only [alookup] at hl
    by_cases hk : k = s
    · rw [if_pos hk] at hl
      cases hl
      exact hc.1.2
    · rw [if_neg hk] at hl
      exact ih hc.2 hl

theorem cleanE_append_single (l : PyDict) (s : String) (v : FieldValue)
    (hc : cleanE l = true) (hdf : dotFree s = true) (hnin : s ∉ dictKeys l)
    (hv : cleanV v = true) : cleanE (l ++ [(s, v)]) = true := by
  induction l with
  | nil => simp [cleanE, dictKeys, hdf, hv]
  | cons p rest ih =>
    obtain ⟨k0, v0⟩ := p
    simp only [cleanE, Bool.and_eq_true] at hc
    simp only [dictKeys, List.map_cons, List.mem_cons] at hnin
    push_neg at hnin
    simp only [List.cons_append, cleanE, Bool.and_eq_true]
    refine ⟨⟨⟨hc.1.1.1, ?_⟩, hc.1.2⟩, ih hc.2 hnin.2⟩
    have h1 : k0 ∉ dictKeys rest := by simpa using hc.1.1.2
    have h2 : k0 ∉ dictKeys (rest ++ [(s, v)]) := by
      rw [dictKeys_append]
      intro hmem
      rcases List.mem_append.mp hmem with h | h
      · exact h1 h
      · simp [dictKeys] at h
        exact hnin.1 h.symm
    simpa using h2

theorem cleanE_aset (l : PyDict) (s : String) (v : FieldValue)
    (hc : cleanE l = true) (hdf : dotFree s = true) (hv : cleanV v = true) :
    cleanE (aset l s v) = true := by
  induction l with
  | nil => simp [aset, cleanE, dictKeys, hdf, hv]
  | cons p rest ih =>
    obtain ⟨k0, v0⟩ := p
    simp only [cleanE, Bool.and_eq_true] at hc
    by_cases h0 : k0 = s
    · subst h0
      simp only [aset, if_pos rfl, cleanE, Bool.and_eq_true]
      exact ⟨⟨⟨hc.1.1.1, hc.1.1.2⟩, hv⟩, hc.2⟩
    · simp only [aset, if_neg h0, cleanE, Bool.and_eq_true]
      refine ⟨⟨⟨hc.1.1.1, ?_⟩, hc.1.2⟩, ih hc.2⟩
      rw [dictKeys_aset]
      have h1 : k0 ∉ dictKeys rest := by
        have := hc.1.1.2
        simpa using this
      unfold addKey
      by_cases hmem : s ∈ dictKeys rest
      · rw [if_pos hmem]
        simpa using h1
      · rw [if_neg hmem]
        simp only [Bool.not_eq_true', decide_eq_false_iff_not]
        intro hin
        rcases List.mem_append.mp hin with h | h
        · exact h1 h
        · simp at h
          exact h0 h

theorem freshPath_nil (P : List String) : freshPath [] P = true := by
  match P with
  | [] => rfl
  | [s] => simp [freshPath, alookup]
  | s :: r :: rest => simp [freshPath, alookup]

theorem scalarAtPath_wrap_self (t : List String) :
    ∀ (a : String) (v : FieldValue), isScalar v = true →
      scalarAtPath [(a, wrapPath t v)] (a :: t) = some v := by
  induction t with
  | nil =>
    intro a v hv
    simp [wrapPath, scalarAtPath, alookup, isScalar_not_map v hv]
  | cons r pr ih =>
    intro a v hv
    simp only [wrapPath, scalarAtPath, alookup, if_pos rfl]
    exact ih r v hv

theorem scalarAtPath_wrap_ne (t : List String) :
    ∀ (a : String) (v : FieldValue) (Q : List String), isScalar v = true →
      Q ≠ a :: t → scalarAtPath [(a, wrapPath t v)] Q = none := by
  induction t with
  | nil =>
    intro a v Q hv hne
    match Q with
    | [] => rfl
    | [q0] =>
      have hq0 : ¬ a = q0 := fun h => hne (by rw [h])
      simp [wrapPath, scalarAtPath, alookup, hq0]
    | q0 :: q1 :: qr =>
      by_cases hq0 : a = q0
      · subst hq0
        simp only [wrapPath, scalarAtPath, alookup, if_pos rfl]
        cases v <;> simp [isScalar] at hv ⊢
      · simp [wrapPath, scalarAtPath, alookup, hq0]
  | cons r pr ih =>
    intro a v Q hv hne
    match Q with
    | [] => rfl
    | [q0] =>
      by_cases hq0 : a = q0
      · subst hq0
        simp [wrapPath, scalarAtPath, alookup, FieldValue.isMap]
      · simp [wrapPath, scalarAtPath, alookup, hq0]
    | q0 :: q1 :: qr =>
      by_cases hq0 : a = q0
      · subst hq0
        simp only [wrapPath, scalarAtPath, alookup, if_pos rfl]
        exact ih r v (q1 :: qr) hv (fun h => hne (by rw [h]))
      · simp [wrapPath, scalarAtPath, alookup, hq0]

theorem freshPath_wrap (t : List String) :
    ∀ (a : String) (v : FieldValue) (Q : List String), isScalar v = true →
      ¬ ((a :: t) <+: Q) → ¬ (Q <+: (a :: t)) →
      freshPath [(a, wrapPath t v)] Q = true := by
  induction t with
  | nil =>
    intro a v Q hv hp1 hp2
    match Q with
    | [] => exact absurd List.nil_prefix hp2
    | [q0] =>
      have hq0 : ¬ a = q0 := by
        intro h
        subst h
        exact hp2 List.prefix_rfl
      simp [freshPath, alookup, hq0]
    | q0 :: q1 :: qr =>
      by_cases hq0 : a = q0
      · subst hq0
        exact absurd ⟨q1 :: qr, rfl⟩ hp1
      · simp [freshPath, alookup, hq0]
  | cons r pr ih =>
    intro a v Q hv hp1 hp2
    match Q with
    | [] => exact absurd List.nil_prefix hp2
    | [q0] =>
      by_cases hq0 : a = q0
      · subst hq0
        exact absurd (List.cons_prefix_cons.mpr ⟨rfl, List.nil_prefix⟩) hp2
      · simp [freshPath, alookup, hq0]
    | q0 :: q1 :: qr =>
      by_cases hq0 : a = q0
      · subst hq0
        simp only [freshPath, alookup, if_pos rfl, wrapPath]
        exact ih r v (q1 :: qr) hv
          (fun h => hp1 (List.cons_prefix_cons.mpr ⟨rfl, h⟩))
          (fun h => hp2 (List.cons_prefix_cons.mpr ⟨rfl, h⟩))
      · simp [freshPath, alookup, hq0]

theorem insertPath_deep_map (t : PyDict) (s r : String) (pr : List String)
    (v : FieldValue) (m : PyDict) (hl : alookup t s = some (FieldValue.map m)) :
    insertPath t (s :: r :: pr) v = aset t s (FieldValue.map (insertPath m (r :: pr) v)) := by
  simp only [insertPath, hl]

theorem insertPath_deep_none (t : PyDict) (s r : String) (pr : List String)
    (v : FieldValue) (hl : alookup t s = none) :
    insertPath t (s :: r :: pr) v = aset t s (wrapPath (r :: pr) v) := by
  simp only [insertPath, hl]

theorem cleanV_wrapPath (t : List String) (v : FieldValue)
    (hdf : ∀ s ∈ t, dotFree s = true) (hv : isScalar v = true) :
    cleanV (wrapPath t v) = true := by
  induction t with
  | nil => exact isScalar_cleanV v hv
  | cons a u ih =>
    have h1 := ih (fun s hs => hdf s (by simp [hs]))
    have h2 := hdf a (by simp)
    simp [wrapPath, cleanV, cleanE, dictKeys, List.isEmpty, h1, h2]

theorem isEmpty_false_of_ne_nil {α : Type} (l : List α) (h : l ≠ []) :
    l.isEmpty = false := by
  cases l with
  | nil => exact absurd rfl h
  | cons a r => rfl

theorem cleanE_insertPath (P : List String) :
    ∀ (t : PyDict) (v : FieldValue),
      cleanE t = true → isScalar v = true → (∀ s ∈ P, dotFree s = true) →
      freshPath t P = true → cleanE (insertPath t P v) = true := by
  induction P with
  | nil =>
    intro t v hc _ _ _
    simpa [insertPath] using hc
  | cons s rest ih =>
    intro t v hc hv hdf hf
    cases rest with
    | nil =>
      simp only [insertPath]
      exact cleanE_aset t s v hc (hdf s (by simp)) (isScalar_cleanV v hv)
    | cons r pr =>
      cases hl : alookup t s with
      | none =>
        rw [insertPath_deep_none t s r pr v hl]
        apply cleanE_aset t s _ hc (hdf s (by simp))
        exact cleanV_wrapPath (r :: pr) v (fun x hx => hdf x (by simp [List.mem_cons] at hx ⊢; tauto)) hv
      | some w =>
        cases w with
        | map m =>
          have hfm : freshPath m (r :: pr) = true := by
            simp only [freshPath, hl] at hf
            exact hf
          have hcm : cleanE m = true := by
            have := alookup_clean t s (FieldValue.map m) hc hl
            simp only [cleanV, Bool.and_eq_true] at this
            exact this.2
          rw [insertPath_deep_map t s r pr v m hl]
          apply cleanE_aset t s _ hc (hdf s (by simp))
          simp only [cleanV, Bool.and_eq_true]
          constructor
          · rw [isEmpty_false_of_ne_nil _ (insertPath_cons_ne_nil m r pr v)]
            rfl
          · exact ih m v hcm hv (fun x hx => hdf x (by simp [List.mem_cons] at hx ⊢; tauto)) hfm
        | null => simp [freshPath, hl] at hf
        | bool b => simp [freshPath, hl] at hf
        | int n => simp [freshPath, hl] at hf
        | str st => simp [freshPath, hl] at hf
        | list xs => simp [freshPath, hl] at hf

theorem scalarAtPath_insertPath_self (P : List String) :
    ∀ (t : PyDict) (v : FieldValue),
      isScalar v = true → freshPath t P = true → P ≠ [] →
      scalarAtPath (insertPath t P v) P = some v := by
  induction P with
  | nil =>
    intro t v _ _ h
    exact absurd rfl h
  | cons s rest ih =>
    intro t v hv hf _
    cases rest with
    | nil =>
      simp only [insertPath, scalarAtPath, alookup_aset_self]
      simp [isScalar_not_map v hv]
    | cons r pr =>
      cases hl : alookup t s with
      | none =>
        rw [insertPath_deep_none t s r pr v hl]
        simp only [scalarAtPath, alookup_aset_self, wrapPath]
        exact scalarAtPath_wrap_self pr r v hv
      | some w =>
        cases w with
        | map m =>
          have hfm : freshPath m (r :: pr) = true := by
            simp only [freshPath, hl] at hf
            exact hf
          rw [insertPath_deep_map t s r pr v m hl]
          simp only [scalarAtPath, alookup_aset_self]
          exact ih m v hv hfm (by simp)
        | null => simp [freshPath, hl] at hf
        | bool b => simp [freshPath, hl] at hf
        | int n => simp [freshPath, hl] at hf
        | str st => simp [freshPath, hl] at hf
        | list xs => simp [freshPath, hl] at hf

theorem scalarAtPath_insertPath_ne (P : List String) :
    ∀ (t : PyDict) (v : FieldValue) (Q : List String),
      isScalar v = true → freshPath t P = true → P ≠ [] → Q ≠ P →
      scalarAtPath (insertPath t P v) Q = scalarAtPath t Q := by
  induction P with
  | nil =>
    intro t v Q _ _ h _
    exact absurd rfl h
  | cons s rest ih =>
    intro t v Q hv hf _ hQ
    cases rest with
    | nil =>
      have hl : alookup t s = none := by
        simp only [freshPath] at hf
        exact Option.isNone_iff_eq_none.mp hf
      match Q with
      | [] => simp [scalarAtPath]
      | [q0] =>
        by_cases hq : q0 = s
        · exact absurd (by rw [hq]) hQ
        · simp only [insertPath, scalarAtPath, alookup_aset_ne t s q0 v hq]
      | q0 :: q1 :: qr =>
        by_cases hq : q0 = s
        · subst hq
          have hR : scalarAtPath t (q0 :: q1 :: qr) = none := by
            simp [scalarAtPath, hl]
          rw [hR]
          simp only [insertPath, scalarAtPath, alookup_aset_self]
          cases v <;> simp [isScalar] at hv ⊢
        · simp only [insertPath, scalarAtPath, alookup_aset_ne t s q0 v hq]
    | cons r pr =>
      cases hl : alookup t s with
      | none =>
        rw [insertPath_deep_none t s r pr v hl]
        match Q with
        | [] => simp [scalarAtPath]
        | [q0] =>
          by_cases hq : q0 = s
          · subst hq
            have hR : scalarAtPath t [q0] = none := by
              simp [scalarAtPath, hl]
            rw [hR]
            simp only [scalarAtPath, alookup_aset_self, wrapPath]
            simp [FieldValue.isMap]
          · simp only [scalarAtPath, alookup_aset_ne t s q0 _ hq]
        | q0 :: q1 :: qr =>
          by_cases hq : q0 = s
          · subst hq
            have hR : scalarAtPath t (q0 :: q1 :: qr) = none := by
              simp [scalarAtPath, hl]
            rw [hR]
            simp only [scalarAtPath, alookup_aset_self, wrapPath]
            exact scalarAtPath_wrap_ne pr r v (q1 :: qr) hv (fun h => hQ (by rw [h]))
          · simp only [scalarAtPath, alookup_aset_ne t s q0 _ hq]
      | some w =>
        cases w with
        | map m =>
          have hfm : freshPath m (r :: pr) = true := by
            simp only [freshPath, hl] at hf
            exact hf
          rw [insertPath_deep_map t s r pr v m hl]
          match Q with
          | [] => simp [scalarAtPath]
          | [q0] =>
            by_cases hq : q0 = s
            · subst hq
              simp [scalarAtPath, alookup_aset_self, hl, FieldValue.isMap]
            · simp only [scalarAtPath, alookup_aset_ne t s q0 _ hq]
          | q0 :: q1 :: qr =>
            by_cases hq : q0 = s
            · subst hq
              simp only [scalarAtPath, alookup_aset_self, hl]
              exact ih m v (q1 :: qr) hv hfm (by simp) (fun h => hQ (by rw [h]))
            · simp only [scalarAtPath, alookup_aset_ne t s q0 _ hq]
        | null => simp [freshPath, hl] at hf
        | bool b => simp [freshPath, hl] at hf
        | int n => simp [freshPath, hl] at hf
        | str st => simp [freshPath, hl] at hf
        | list xs => simp [freshPath, hl] at hf

theorem freshPath_insertPath (P : List String) :
    ∀ (t : PyDict) (v : FieldValue) (Q : List String),
      isScalar v = true → freshPath t P = true → freshPath t Q = true →
      ¬ (P <+: Q) → ¬ (Q <+: P) →
      freshPath (insertPath t P v) Q = true := by
  induction P with
  | nil =>
    intro t v Q _ _ _ h1 _
    exact absurd List.nil_prefix h1
  | cons s rest ih =>
    intro t v Q hv hfP hfQ hp1 hp2
    match Q with
    | [] => exact absurd List.nil_prefix hp2
    | [q0] =>
      have hq : q0 ≠ s := by
        intro h
        subst h
        exact hp2 (List.cons_prefix_cons.mpr ⟨rfl, List.nil_prefix⟩)
      cases rest with
      | nil =>
        simp only [insertPath, freshPath, alookup_aset_ne t s q0 v hq]
        simp only [freshPath] at hfQ
        exact hfQ
      | cons r pr =>
        cases hl : alookup t s with
        | none =>
          rw [insertPath_deep_none t s r pr v hl]
          simp only [freshPath, alookup_aset_ne t s q0 _ hq]
          simp only [freshPath] at hfQ
          exact hfQ
        | some w =>
          cases w with
          | map m =>
            rw [insertPath_deep_map t s r pr v m hl]
            simp only [freshPath, alookup_aset_ne t s q0 _ hq]
            simp only [freshPath] at hfQ
            exact hfQ
          | null => simp [freshPath, hl] at hfP
          | bool b => simp [freshPath, hl] at hfP
          | int n => simp [freshPath, hl] at hfP
          | str st => simp [freshPath, hl] at hfP
          | list xs => simp [freshPath, hl] at hfP
    | q0 :: q1 :: qr =>
      by_cases hq : q0 = s
      · subst hq
        cases rest with
        | nil =>
          exact absurd (List.cons_prefix_cons.mpr ⟨rfl, List.nil_prefix⟩) hp1
        | cons r pr =>
          have hp1' : ¬ ((r :: pr) <+: (q1 :: qr)) :=
            fun h => hp1 (List.cons_prefix_cons.mpr ⟨rfl, h⟩)
          have hp2' : ¬ ((q1 :: qr) <+: (r :: pr)) :=
            fun h => hp2 (List.cons_prefix_cons.mpr ⟨rfl, h⟩)
          cases hl : alookup t q0 with
          | none =>
            rw [insertPath_deep_none t q0 r pr v hl]
            simp only [freshPath, alookup_aset_self, wrapPath]
            exact freshPath_wrap pr r v (q1 :: qr) hv hp1' hp2'
          | some w =>
            cases w with
            | map m =>
              have hfm : freshPath m (r :: pr) = true := by
                simp only [freshPath, hl] at hfP
                exact hfP
              have hfmQ : freshPath m (q1 :: qr) = true := by
                simp only [freshPath, hl] at hfQ
                exact hfQ
              rw [insertPath_deep_map t q0 r pr v m hl]
              simp only [freshPath, alookup_aset_self]
              exact ih m v (q1 :: qr) hv hfm hfmQ hp1' hp2'
            | null => simp [freshPath, hl] at hfP
            | bool b => simp [freshPath, hl] at hfP
            | int n => simp [freshPath, hl] at hfP
            | str st => simp [freshPath, hl] at hfP
            | list xs => simp [freshPath, hl] at hfP
      · cases rest with
        | nil =>
          simp only [insertPath, freshPath, alookup_aset_ne t s q0 v hq]
          simp only [freshPath] at hfQ
          exact hfQ
        | cons r pr =>
          cases hl : alookup t s with
          | none =>
            rw [insertPath_deep_none t s r pr v hl]
            simp only [freshPath, alookup_aset_ne t s q0 _ hq]
            simp only [freshPath] at hfQ
            exact hfQ
          | some w =>
            cases w with
            | map m =>
              rw [insertPath_deep_map t s r pr v m hl]
              simp only [freshPath, alookup_aset_ne t s q0 _ hq]
              simp only [freshPath] at hfQ
              exact hfQ
            | null => simp [freshPath, hl] at hfP
            | bool b => simp [freshPath, hl] at hfP
            | int n => simp [freshPath, hl] at hfP
            | str st => simp [freshPath, hl] at hfP
            | list xs => simp [freshPath, hl] at hfP

theorem cleanE_keys_nodup (m : PyDict) (hc : cleanE m = true) :
    (dictKeys m).Nodup := by
  induction m with
  | nil => simp [dictKeys]
  | cons p rest ih =>
    obtain ⟨k, v⟩ := p
    simp only [cleanE, Bool.and_eq_true] at hc
    rw [show dictKeys ((k, v) :: rest) = k :: dictKeys rest from rfl]
    refine List.nodup_cons.mpr ⟨?_, ih hc.2⟩
    have := hc.1.1.2
    simpa using this

theorem alookup_some_mem (m : PyDict) (s : String) (w : FieldValue)
    (h : alookup m s = some w) : s ∈ dictKeys m := by
  by_contra hmem
  rw [(alookup_eq_none_iff m s).mpr hmem] at h
  exact Option.noConfusion h

theorem mergeLoop_split (f i : PyDict) (ks1 ks2 : List String) (out : PyDict) :
    mergeLoop f i (ks1 ++ ks2) out = mergeLoop f i ks2 (mergeLoop f i ks1 out) := by
  induction ks1 generalizing out with
  | nil => simp [mergeLoop]
  | cons k ks ih =>
    simp only [List.cons_append, mergeLoop]
    exact ih _

theorem dedup_append_single_mem (l : List String) (a : String)
    (hnd : l.Nodup) (ha : a ∈ l) : dedupKeys (l ++ [a]) = l := by
  induction l with
  | nil => simp at ha
  | cons x rest ih =>
    have hx : x ∉ rest := (List.nodup_cons.mp hnd).1
    have hrest : rest.Nodup := (List.nodup_cons.mp hnd).2
    have hfil : rest.filter (fun y => y ≠ x) = rest := by
      apply List.filter_eq_self.mpr
      intro b hb
      simp only [ne_eq, decide_not, Bool.not_eq_eq_eq_not, Bool.not_true,
        decide_eq_false_iff_not]
      intro hbx
      exact hx (hbx ▸ hb)
    rw [List.cons_append]
    simp only [dedupKeys]
    rw [List.filter_append, hfil]
    by_cases hax : a = x
    · subst hax
      rw [show [a].filter (fun y => y ≠ a) = [] from by simp]
      rw [List.append_nil]
      rw [dedupKeys_of_nodup rest hrest]
    · rw [show [a].filter (fun y => y ≠ x) = [a] from by simp [hax]]
      have ha' : a ∈ rest := by
        rcases List.mem_cons.mp ha with h | h
        · exact absurd h hax
        · exact h
      rw [ih hrest ha']

theorem union_keys_wrap (m : PyDict) (a : String) (wv : FieldValue)
    (hm : ∀ p ∈ m, p.2 ≠ FieldValue.map []) (hw : wv ≠ FieldValue.map []) :
    union_keys m [(a, wv)] = dedupKeys (dictKeys m ++ [a]) := by
  unfold union_keys
  have h1 : m.filter (fun p => p.2 ≠ FieldValue.map []) = m := by
    apply List.filter_eq_self.mpr
    intro p hp
    simpa using hm p hp
  have h2 : [(a, wv)].filter (fun p => p.2 ≠ FieldValue.map []) = [(a, wv)] := by
    simp [hw]
  rw [h1, h2]
  rfl

theorem mergeLoop_id_aux :
    ∀ (m w M out : PyDict),
      (∀ k ∈ dictKeys m, alookup w k = none) →
      (∀ k ∈ dictKeys m, alookup M k = alookup m k) →
      (∀ k ∈ dictKeys m, k ∉ dictKeys out) →
      (dictKeys m).Nodup →
      (∀ p ∈ m, p.2 ≠ FieldValue.map []) →
      mergeLoop w M (dictKeys m) out = out ++ m := by
  intro m
  induction m with
  | nil =>
    intro w M out _ _ _ _ _
    simp [dictKeys, mergeLoop]
  | cons p rest ih =>
    obtain ⟨k0, w0⟩ := p
    intro w M out h1 h2 h3 hnd h5
    have hk0 : k0 ∈ dictKeys ((k0, w0) :: rest) := by simp [dictKeys]
    have hw : alookup w k0 = none := h1 k0 hk0
    have hM : alookup M k0 = some w0 := by
      rw [h2 k0 hk0]
      simp [alookup]
    have hne : w0 ≠ FieldValue.map [] := h5 (k0, w0) (by simp)
    have hnd' := List.nodup_cons.mp (show (k0 :: dictKeys rest).Nodup from hnd)
    rw [show dictKeys ((k0, w0) :: rest) = k0 :: dictKeys rest from rfl]
    simp only [mergeLoop, hw, hM, merge_none_some]
    rw [if_pos hne]
    rw [aset_fresh_append out k0 w0 (h3 k0 hk0)]
    rw [ih w M (out ++ [(k0, w0)])
      (fun k hk => h1 k (List.mem_cons_of_mem _ hk))
      (fun k hk => by
        have hkk0 : k ≠ k0 := fun h => hnd'.1 (h ▸ hk)
        rw [h2 k (List.mem_cons_of_mem _ hk)]
        simp only [alookup]
        rw [if_neg (fun h => hkk0 h.symm)])
      (fun k hk => by
        have hkk0 : k ≠ k0 := fun h => hnd'.1 (h ▸ hk)
        rw [dictKeys_append]
        intro hmem
        rcases List.mem_append.mp hmem with h | h
        · exact h3 k (List.mem_cons_of_mem _ hk) h
        · simp [dictKeys] at h
          exact hkk0 h)
      hnd'.2
      (fun p hp => h5 p (List.mem_cons_of_mem _ hp))]
    simp

theorem mergeLoop_replace_aux :
    ∀ (m w M out : PyDict) (a : String) (vnew : FieldValue),
      (∀ k ∈ dictKeys m, k ≠ a → alookup w k = none) →
      (∀ k ∈ dictKeys m, alookup M k = alookup m k) →
      (∀ k ∈ dictKeys m, k ∉ dictKeys out) →
      (dictKeys m).Nodup →
      (∀ p ∈ m, p.2 ≠ FieldValue.map []) →
      a ∈ dictKeys m →
      merge_values (alookup w a) (alookup M a) = vnew →
      vnew ≠ FieldValue.map [] →
      mergeLoop w M (dictKeys m) out = out ++ aset m a vnew := by
  intro m
  induction m with
  | nil =>
    intro w M out a vnew _ _ _ _ _ hmem _ _
    simp [dictKeys] at hmem
  | cons p rest ih =>
    obtain ⟨k0, w0⟩ := p
    intro w M out a vnew h1 h2 h3 hnd h5 hmem hvm hvne
    have hk0 : k0 ∈ dictKeys ((k0, w0) :: rest) := by simp [dictKeys]
    have hnd' := List.nodup_cons.mp (show (k0 :: dictKeys rest).Nodup from hnd)
    rw [show dictKeys ((k0, w0) :: rest) = k0 :: dictKeys rest from rfl]
    by_cases hk : k0 = a
    · subst hk
      simp only [mergeLoop, hvm]
      rw [if_pos hvne]
      rw [aset_fresh_append out k0 vnew (h3 k0 hk0)]
      rw [show aset ((k0, w0) :: rest) k0 vnew = (k0, vnew) :: rest from by simp [aset]]
      rw [mergeLoop_id_aux rest w M (out ++ [(k0, vnew)])
        (fun k hk => h1 k (List.mem_cons_of_mem _ hk)
          (fun h => hnd'.1 (h ▸ hk)))
        (fun k hk => by
          have hkk0 : k ≠ k0 := fun h => hnd'.1 (h ▸ hk)
          rw [h2 k (List.mem_cons_of_mem _ hk)]
          simp only [alookup]
          rw [if_neg (fun h => hkk0 h.symm)])
        (fun k hk => by
          have hkk0 : k ≠ k0 := fun h => hnd'.1 (h ▸ hk)
          rw [dictKeys_append]
          intro hmem2
          rcases List.mem_append.mp hmem2 with h | h
          · exact h3 k (List.mem_cons_of_mem _ hk) h
          · simp [dictKeys] at h
            exact hkk0 h)
        hnd'.2
        (fun p hp => h5 p (List.mem_cons_of_mem _ hp))]
      simp
    · have hw : alookup w k0 = none := h1 k0 hk0 hk
      have hM : alookup M k0 = some w0 := by
        rw [h2 k0 hk0]
        simp [alookup]
      have hne : w0 ≠ FieldValue.map [] := h5 (k0, w0) (by simp)
      have ha' : a ∈ dictKeys rest := by
        rcases List.mem_cons.mp (show a ∈ k0 :: dictKeys rest from hmem) with h | h
        · exact absurd h.symm hk
        · exact h
      simp only [mergeLoop, hw, hM, merge_none_some]
      rw [if_pos hne]
      rw [aset_fresh_append out k0 w0 (h3 k0 hk0)]
      rw [show aset ((k0, w0) :: rest) a vnew = (k0, w0) :: aset rest a vnew from by
        simp [aset, hk]]
      rw [ih w M (out ++ [(k0, w0)]) a vnew
        (fun k hk2 hka => h1 k (List.mem_cons_of_mem _ hk2) hka)
        (fun k hk2 => by
          have hkk0 : k ≠ k0 := fun h => hnd'.1 (h ▸ hk2)
          rw [h2 k (List.mem_cons_of_mem _ hk2)]
          simp only [alookup]
          rw [if_neg (fun h => hkk0 h.symm)])
        (fun k hk2 => by
          have hkk0 : k ≠ k0 := fun h => hnd'.1 (h ▸ hk2)
          rw [dictKeys_append]
          intro hmem2
          rcases List.mem_append.mp hmem2 with h | h
          · exact h3 k (List.mem_cons_of_mem _ hk2) h
          · simp [dictKeys] at h
            exact hkk0 h)
        hnd'.2
        (fun p hp => h5 p (List.mem_cons_of_mem _ hp))
        ha'
        hvm
        hvne]
      simp

theorem merge_wrap_insert :
    ∀ (t : List String) (a : String) (m : PyDict) (v : FieldValue),
      cleanE m = true → isScalar v = true → freshPath m (a :: t) = true →
      mergeLoop [(a, wrapPath t v)] m (union_keys m [(a, wrapPath t v)]) [] =
        insertPath m (a :: t) v := by
  intro t
  induction t with
  | nil =>
    intro a m v hc hv hf
    have hl : alookup m a = none := by
      simp only [freshPath] at hf
      exact Option.isNone_iff_eq_none.mp hf
    have hnin : a ∉ dictKeys m := (alookup_eq_none_iff m a).mp hl
    have hnodup2 : (dictKeys m ++ [a]).Nodup := by
      rw [List.nodup_append]
      refine ⟨cleanE_keys_nodup m hc, List.nodup_singleton a, ?_⟩
      intro x hx hx2
      simp at hx2
      exact hnin (hx2 ▸ hx)
    rw [union_keys_wrap m a _ (cleanE_values_ne_empty m hc) (wrapPath_ne_empty [] v hv)]
    rw [dedupKeys_of_nodup _ hnodup2, mergeLoop_split]
    rw [mergeLoop_id_aux m [(a, wrapPath [] v)] m []
      (fun k hk => by
        simp only [alookup]
        rw [if_neg (fun h => hnin (by rw [h]; exact hk))])
      (fun k _ => rfl)
      (by simp [dictKeys])
      (cleanE_keys_nodup m hc)
      (cleanE_values_ne_empty m hc)]
    simp only [List.nil_append]
    simp only [mergeLoop]
    rw [show alookup [(a, wrapPath [] v)] a = some (wrapPath [] v) from by simp [alookup]]
    rw [hl, merge_some_none]
    rw [if_pos (wrapPath_ne_empty [] v hv)]
    simp [mergeLoop, wrapPath, insertPath]
  | cons r pr ih =>
    intro a m v hc hv hf
    have hwv : wrapPath (r :: pr) v = FieldValue.map [(r, wrapPath pr v)] := rfl
    cases hl : alookup m a with
    | none =>
      have hnin : a ∉ dictKeys m := (alookup_eq_none_iff m a).mp hl
      have hnodup2 : (dictKeys m ++ [a]).Nodup := by
        rw [List.nodup_append]
        refine ⟨cleanE_keys_nodup m hc, List.nodup_singleton a, ?_⟩
        intro x hx hx2
        simp at hx2
        exact hnin (hx2 ▸ hx)
      rw [union_keys_wrap m a _ (cleanE_values_ne_empty m hc)
        (wrapPath_ne_empty (r :: pr) v hv)]
      rw [dedupKeys_of_nodup _ hnodup2, mergeLoop_split]
      rw [mergeLoop_id_aux m [(a, wrapPath (r :: pr) v)] m []
        (fun k hk => by
          simp only [alookup]
          rw [if_neg (fun h => hnin (by rw [h]; exact hk))])
        (fun k _ => rfl)
        (by simp [dictKeys])
        (cleanE_keys_nodup m hc)
        (cleanE_values_ne_empty m hc)]
      simp only [List.nil_append]
      simp only [mergeLoop]
      rw [show alookup [(a, wrapPath (r :: pr) v)] a = some (wrapPath (r :: pr) v) from by
        simp [alookup]]
      rw [hl, merge_some_none]
      rw [if_pos (wrapPath_ne_empty (r :: pr) v hv)]
      rw [insertPath_deep_none m a r pr v hl]
    | some w =>
      cases w with
      | map msub =>
        have hfm : freshPath msub (r :: pr) = true := by
          simp only [freshPath, hl] at hf
          exact hf
        have hcm : cleanE msub = true := by
          have := alookup_clean m a (FieldValue.map msub) hc hl
          simp only [cleanV, Bool.and_eq_true] at this
          exact this.2
        have hmem : a ∈ dictKeys m := alookup_some_mem m a _ hl
        have hvnew : merge_values (alookup [(a, wrapPath (r :: pr) v)] a) (alookup m a) =
            FieldValue.map (insertPath msub (r :: pr) v) := by
          rw [show alookup [(a, wrapPath (r :: pr) v)] a = some (wrapPath (r :: pr) v) from by
            simp [alookup]]
          rw [hl, hwv, merge_map_map]
          congr 1
          exact ih r msub v hcm hv hfm
        have hvne2 : FieldValue.map (insertPath msub (r :: pr) v) ≠ FieldValue.map [] := by
          intro h
          injection h with h2
          exact insertPath_cons_ne_nil msub r pr v h2
        rw [union_keys_wrap m a _ (cleanE_values_ne_empty m hc)
          (wrapPath_ne_empty (r :: pr) v hv)]
        rw [dedup_append_single_mem (dictKeys m) a (cleanE_keys_nodup m hc) hmem]
        rw [mergeLoop_replace_aux m [(a, wrapPath (r :: pr) v)] m [] a
          (FieldValue.map (insertPath msub (r :: pr) v))
          (fun k _ hka => by
            simp only [alookup]
            rw [if_neg (fun h => hka h.symm)])
          (fun k _ => rfl)
          (by simp [dictKeys])
          (cleanE_keys_nodup m hc)
          (cleanE_values_ne_empty m hc)
          hmem
          hvnew
          hvne2]
        rw [insertPath_deep_map m a r pr v msub hl]
        simp
      | null => simp [freshPath, hl] at hf
      | bool b => simp [freshPath, hl] at hf
      | int n => simp [freshPath, hl] at hf
      | str st => simp [freshPath, hl] at hf
      | list xs => simp [freshPath, hl] at hf

theorem normalize_step_insert (out : PyDict) (k : String) (v : FieldValue)
    (hc : cleanE out = true) (hv : isScalar v = true)
    (hf : freshPath out (splitDots k) = true) :
    aset out (headSegment k)
      (merge_values (some (wrapPath (splitDots k).tail v)) (alookup out (headSegment k))) =
      insertPath out (splitDots k) v := by
  obtain ⟨s1, sr, hsq⟩ := splitDots_exists_cons k
  have hhead : headSegment k = s1 := by
    unfold headSegment
    rw [hsq]
    rfl
  rw [hhead, hsq]
  rw [hsq] at hf
  simp only [List.tail_cons]
  cases hl : alookup out s1 with
  | none =>
    rw [merge_some_none]
    cases sr with
    | nil => simp [insertPath, wrapPath]
    | cons r pr => rw [insertPath_deep_none out s1 r pr v hl]
  | some w =>
    cases sr with
    | nil => simp [freshPath, hl] at hf
    | cons r pr =>
      cases w with
      | map msub =>
        have hfm : freshPath msub (r :: pr) = true := by
          simp only [freshPath, hl] at hf
          exact hf
        have hcm : cleanE msub = true := by
          have := alookup_clean out s1 (FieldValue.map msub) hc hl
          simp only [cleanV, Bool.and_eq_true] at this
          exact this.2
        rw [show wrapPath (r :: pr) v = FieldValue.map [(r, wrapPath pr v)] from rfl]
        rw [merge_map_map]
        rw [merge_wrap_insert pr r msub v hcm hv hfm]
        rw [insertPath_deep_map out s1 r pr v msub hl]
      | null => simp [freshPath, hl] at hf
      | bool b => simp [freshPath, hl] at hf
      | int n => simp [freshPath, hl] at hf
      | str st => simp [freshPath, hl] at hf
      | list xs => simp [freshPath, hl] at hf

theorem normalizeEntries_insert_spec :
    ∀ (fl out : PyDict),
      cleanE out = true →
      (∀ p ∈ fl, isScalar p.2 = true) →
      (∀ p ∈ fl, freshPath out (splitDots p.1) = true) →
      (dictKeys fl).Nodup →
      (∀ p ∈ fl, ∀ q ∈ fl, p.1 ≠ q.1 → ¬ (splitDots p.1 <+: splitDots q.1)) →
      cleanE (normalizeEntries fl out) = true ∧
      (∀ s w, alookup fl s = some w →
        scalarAtPath (normalizeEntries fl out) (splitDots s) = some w) ∧
      (∀ s, alookup fl s = none →
        scalarAtPath (normalizeEntries fl out) (splitDots s) =
          scalarAtPath out (splitDots s)) := by
  intro fl
  induction fl with
  | nil =>
    intro out hc _ _ _ _
    refine ⟨by simpa [normalizeEntries] using hc, ?_, ?_⟩
    · intro s w hsw
      simp [alookup] at hsw
    · intro s _
      simp [normalizeEntries]
  | cons p rest ih =>
    obtain ⟨k, v⟩ := p
    intro out hc hscal hfr hnd hpre
    have hv : isScalar v = true := hscal (k, v) (by simp)
    have hfk : freshPath out (splitDots k) = true := hfr (k, v) (by simp)
    have hnd0 := List.nodup_cons.mp (show (k :: dictKeys rest).Nodup from hnd)
    have hknotin : k ∉ dictKeys rest := hnd0.1
    have hstep : normalizeEntries ((k, v) :: rest) out =
        normalizeEntries rest (insertPath out (splitDots k) v) := by
      have hd1 : (de_dot k v).1 = headSegment k := by rw [de_dot_eq]
      have hd2 : (de_dot k v).2 = wrapPath (splitDots k).tail v := by rw [de_dot_eq]
      cases v with
      | null =>
        simp only [normalizeEntries, hd1, hd2]
        rw [normalize_step_insert out k FieldValue.null hc hv hfk]
      | bool b =>
        simp only [normalizeEntries, hd1, hd2]
        rw [normalize_step_insert out k (FieldValue.bool b) hc hv hfk]
      | int n =>
        simp only [normalizeEntries, hd1, hd2]
        rw [normalize_step_insert out k (FieldValue.int n) hc hv hfk]
      | str st =>
        simp only [normalizeEntries, hd1, hd2]
        rw [normalize_step_insert out k (FieldValue.str st) hc hv hfk]
      | list xs => simp [isScalar] at hv
      | map m => simp [isScalar] at hv
    rw [hstep]
    have hc' : cleanE (insertPath out (splitDots k) v) = true :=
      cleanE_insertPath (splitDots k) out v hc hv (splitDots_dotFree k) hfk
    have hfr' : ∀ p ∈ rest, freshPath (insertPath out (splitDots k) v) (splitDots p.1) = true := by
      intro p hp
      have hpk : p.1 ≠ k := by
        intro h
        exact hknotin (h ▸ List.mem_map_of_mem Prod.fst hp)
      exact freshPath_insertPath (splitDots k) out v (splitDots p.1) hv hfk
        (hfr p (List.mem_cons_of_mem _ hp))
        (hpre (k, v) (by simp) p (List.mem_cons_of_mem _ hp) (fun h => hpk h.symm))
        (hpre p (List.mem_cons_of_mem _ hp) (k, v) (by simp) hpk)
    obtain ⟨ihc, ihsome, ihnone⟩ := ih (insertPath out (splitDots k) v) hc'
      (fun p hp => hscal p (List.mem_cons_of_mem _ hp))
      hfr'
      hnd0.2
      (fun p hp q hq hne => hpre p (List.mem_cons_of_mem _ hp) q (List.mem_cons_of_mem _ hq) hne)
    refine ⟨ihc, ?_, ?_⟩
    · intro s w hsw
      simp only [alookup] at hsw
      by_cases hks : k = s
      · rw [if_pos hks] at hsw
        cases hsw
        subst hks
        rw [ihnone k ((alookup_eq_none_iff rest k).mpr hknotin)]
        exact scalarAtPath_insertPath_self (splitDots k) out v hv hfk (splitDots_ne_nil k)
      · rw [if_neg hks] at hsw
        exact ihsome s w hsw
    · intro s hsn
      simp only [alookup] at hsn
      by_cases hks : k = s
      · rw [if_pos hks] at hsn
        exact Option.noConfusion hsn
      · rw [if_neg hks] at hsn
        rw [ihnone s hsn]
        apply scalarAtPath_insertPath_ne (splitDots k) out v (splitDots s) hv hfk
          (splitDots_ne_nil k)
        intro h
        apply hks
        have h1 := joinDots_splitDots s
        have h2 := joinDots_splitDots k
        rw [h] at h1
        rw [h2] at h1
        exact h1

theorem nodup_keys_aset (t : PyDict) (k : String) (v : FieldValue)
    (h : (dictKeys t).Nodup) : (dictKeys (aset t k v)).Nodup := by
  rw [dictKeys_aset]
  unfold addKey
  by_cases hmem : k ∈ dictKeys t
  · rw [if_pos hmem]
    exact h
  · rw [if_neg hmem]
    rw [List.nodup_append]
    refine ⟨h, List.nodup_singleton k, ?_⟩
    intro x hx hx2
    simp at hx2
    exact hmem (hx2 ▸ hx)

theorem mem_aset_elim (t : PyDict) (k : String) (v : FieldValue) :
    ∀ p ∈ aset t k v, p ∈ t ∨ p.2 = v := by
  induction t with
  | nil =>
    intro p hp
    simp [aset] at hp
    right
    rw [hp]
  | cons q rest ih =>
    obtain ⟨k0, v0⟩ := q
    intro p hp
    by_cases h0 : k0 = k
    · rw [show aset ((k0, v0) :: rest) k v = (k0, v) :: rest from by simp [aset, h0]] at hp
      rcases List.mem_cons.mp hp with h | h
      · right
        rw [h]
      · left
        exact List.mem_cons_of_mem _ h
    · rw [show aset ((k0, v0) :: rest) k v = (k0, v0) :: aset rest k v from by
        simp [aset, h0]] at hp
      rcases List.mem_cons.mp hp with h | h
      · left
        rw [h]
        exact List.mem_cons_self _ _
      · rcases ih p h with h2 | h2
        · exact Or.inl (List.mem_cons_of_mem _ h2)
        · exact Or.inr h2

theorem foldl_aset_nodup (src : PyDict) (f : String → String) :
    ∀ t : PyDict, (dictKeys t).Nodup →
      (dictKeys (src.foldl (fun t q => aset t (f q.1) q.2) t)).Nodup := by
  induction src with
  | nil =>
    intro t h
    simpa using h
  | cons q rest ih =>
    intro t h
    simp only [List.foldl_cons]
    exact ih _ (nodup_keys_aset t (f q.1) q.2 h)

theorem foldl_aset_scalar (src : PyDict) (f : String → String) :
    ∀ t : PyDict, (∀ p ∈ t, isScalar p.2 = true) → (∀ p ∈ src, isScalar p.2 = true) →
      ∀ p ∈ src.foldl (fun t q => aset t (f q.1) q.2) t, isScalar p.2 = true := by
  induction src with
  | nil =>
    intro t ht _ p hp
    exact ht p (by simpa using hp)
  | cons q rest ih =>
    intro t ht hsrc p hp
    simp only [List.foldl_cons] at hp
    refine ih _ ?_ (fun r hr => hsrc r (List.mem_cons_of_mem _ hr)) p hp
    intro r hr
    rcases mem_aset_elim t (f q.1) q.2 r hr with h | h
    · exact ht r h
    · rw [h]
      exact hsrc q (List.mem_cons_self _ _)

theorem flattenGo_nodup_aux :
    ∀ (n : Nat) (l : PyDict), sizeOf l ≤ n → ∀ top : PyDict,
      (dictKeys top).Nodup → (dictKeys (flattenGo top l)).Nodup := by
  intro n
  induction n with
  | zero =>
    intro l hsz top h
    cases l with
    | nil => simpa [flattenGo] using h
    | cons p rest => simp at hsz
  | succ n ih =>
    intro l hsz top h
    match l with
    | [] => simpa [flattenGo] using h
    | (k, v) :: rest =>
      have hszr : sizeOf rest ≤ n := by
        simp only [List.cons.sizeOf_spec] at hsz
        omega
      cases v
      case map sub =>
        simp only [flattenGo]
        exact ih rest hszr _
          (foldl_aset_nodup (flattenGo [] sub) (fun s => k ++ "." ++ s) top h)
      case null =>
        simp only [flattenGo]
        exact ih rest hszr _ (nodup_keys_aset top k _ h)
      case bool b =>
        simp only [flattenGo]
        exact ih rest hszr _ (nodup_keys_aset top k _ h)
      case int n2 =>
        simp only [flattenGo]
        exact ih rest hszr _ (nodup_keys_aset top k _ h)
      case str s =>
        simp only [flattenGo]
        exact ih rest hszr _ (nodup_keys_aset top k _ h)
      case list xs =>
        simp only [flattenGo]
        exact ih rest hszr _ (nodup_keys_aset top k _ h)

theorem flatten_keys_nodup (m : PyDict) : (dictKeys (flatten_dict m)).Nodup :=
  flattenGo_nodup_aux (sizeOf m) m le_rfl [] (by simp [dictKeys])

theorem flattenGo_scalar_aux :
    ∀ (n : Nat) (l : PyDict), sizeOf l ≤ n → ∀ top : PyDict,
      (∀ p ∈ top, isScalar p.2 = true) → listFreeE l = true →
      ∀ p ∈ flattenGo top l, isScalar p.2 = true := by
  intro n
  induction n with
  | zero =>
    intro l hsz top h _
    cases l with
    | nil => simpa [flattenGo] using h
    | cons p rest => simp at hsz
  | succ n ih =>
    intro l hsz top h hlf
    match l with
    | [] => simpa [flattenGo] using h
    | (k, v) :: rest =>
      have hszr : sizeOf rest ≤ n := by
        simp only [List.cons.sizeOf_spec] at hsz
        omega
      simp only [listFreeE, Bool.and_eq_true] at hlf
      cases v
      case map sub =>
        have hszs : sizeOf sub ≤ n := by
          simp only [List.cons.sizeOf_spec, Prod.mk.sizeOf_spec,
            FieldValue.map.sizeOf_spec] at hsz
          have hk : 0 ≤ sizeOf k := by positivity
          omega
        have hlfsub : listFreeE sub = true := by
          have := hlf.1
          simpa [listFreeV] using this
        have hsub : ∀ p ∈ flattenGo [] sub, isScalar p.2 = true :=
          ih sub hszs [] (by simp) hlfsub
        simp only [flattenGo]
        exact ih rest hszr _
          (foldl_aset_scalar (flattenGo [] sub) (fun s => k ++ "." ++ s) top h hsub)
          hlf.2
      case null =>
        simp only [flattenGo]
        refine ih rest hszr _ ?_ hlf.2
        intro p hp
        rcases mem_aset_elim top k _ p hp with h2 | h2
        · exact h p h2
        · rw [h2]
          rfl
      case bool b =>
        simp only [flattenGo]
        refine ih rest hszr _ ?_ hlf.2
        intro p hp
        rcases mem_aset_elim top k _ p hp with h2 | h2
        · exact h p h2
        · rw [h2]
          rfl
      case int n2 =>
        simp only [flattenGo]
        refine ih rest hszr _ ?_ hlf.2
        intro p hp
        rcases mem_aset_elim top k _ p hp with h2 | h2
        · exact h p h2
        · rw [h2]
          rfl
      case str s =>
        simp only [flattenGo]
        refine ih rest hszr _ ?_ hlf.2
        intro p hp
        rcases mem_aset_elim top k _ p hp with h2 | h2
        · exact h p h2
        · rw [h2]
          rfl
      case list xs =>
        have := hlf.1
        simp [listFreeV] at this

theorem flatten_scalar (m : PyDict) (hlf : listFreeE m = true) :
    ∀ p ∈ flatten_dict m, isScalar p.2 = true :=
  flattenGo_scalar_aux (sizeOf m) m le_rfl [] (by simp) hlf

theorem flatList_of_scalar (fl : PyDict) (h : ∀ p ∈ fl, isScalar p.2 = true) :
    flatList fl = fl := by
  induction fl with
  | nil => simp [flatList]
  | cons p rest ih =>
    obtain ⟨k, v⟩ := p
    have hv : isScalar v = true := h (k, v) (by simp)
    have hrest := ih (fun q hq => h q (List.mem_cons_of_mem _ hq))
    cases v
    case map sub => simp [isScalar] at hv
    case list xs => simp [isScalar] at hv
    case null => simp only [flatList, hrest]
    case bool b => simp only [flatList, hrest]
    case int n => simp only [flatList, hrest]
    case str s => simp only [flatList, hrest]

theorem flatten_flat_id (fl : PyDict) (hscal : ∀ p ∈ fl, isScalar p.2 = true)
    (hnd : (dictKeys fl).Nodup) : flatten_dict fl = fl := by
  unfold flatten_dict
  rw [flattenGo_eq fl []]
  · rw [flatList_of_scalar fl hscal]
    simp
  · rw [flatList_of_scalar fl hscal]
    simpa using hnd

/-- C2 (amended): the flatten/normalize round trip holds under the two side
conditions the counterexample shows to be necessary: `m` contains no Python
lists, and no dotted key of `flatten_dict m` is a dot-segment prefix of
another.  Then re-flattening the normalized flattening agrees with
`flatten_dict m` as a map (same value at every key); and `flatten_dict` is
idempotent on the already-flat `flatten_dict m` (exact list equality). -/
theorem flatten_normalize_round_trip (m : PyDict)
    (hlf : listFreeE m = true)
    (hpf : ∀ p ∈ flatten_dict m, ∀ q ∈ flatten_dict m,
      p.1 ≠ q.1 → ¬ (splitDots p.1 <+: splitDots q.1)) :
    (∀ s, alookup (flatten_dict (normalize_dict (flatten_dict m))) s =
      alookup (flatten_dict m) s) ∧
    flatten_dict (flatten_dict m) = flatten_dict m := by
  have hscal := flatten_scalar m hlf
  have hnd := flatten_keys_nodup m
  obtain ⟨hc, hsome, hnone⟩ := normalizeEntries_insert_spec (flatten_dict m) []
    rfl hscal (fun p _ => freshPath_nil (splitDots p.1)) hnd hpf
  constructor
  · intro s
    have hcn : cleanE (normalize_dict (flatten_dict m)) = true := hc
    rw [flatten_dict_eq_flatList _ hcn, flatList_lookup _ hcn s]
    cases hals : alookup (flatten_dict m) s with
    | some w => exact hsome s w hals
    | none =>
      rw [show normalize_dict (flatten_dict m) =
        normalizeEntries (flatten_dict m) [] from rfl]
      rw [hnone s hals]
      exact scalarAtPath_nil _
  · exact flatten_flat_id (flatten_dict m) hscal hnd

theorem flatten_normalize_round_trip_witness :
    alookup (flatten_dict (normalize_dict (flatten_dict
        [("a", FieldValue.map [("b", FieldValue.int 1)]), ("c", FieldValue.int 2)]))) "a.b" =
      alookup (flatten_dict
        [("a", FieldValue.map [("b", FieldValue.int 1)]), ("c", FieldValue.int 2)]) "a.b" :=
  (flatten_normalize_round_trip
    [("a", FieldValue.map [("b", FieldValue.int 1)]), ("c", FieldValue.int 2)]
    (by simp [listFreeE, listFreeV])
    (by
      have hfd : flatten_dict
          [("a", FieldValue.map [("b", FieldValue.int 1)]), ("c", FieldValue.int 2)] =
          [("a.b", FieldValue.int 1), ("c", FieldValue.int 2)] := by
        simp [flatten_dict, flattenGo, aset]
      rw [hfd]
      decide)).1 "a.b"
